import Mathlib

/-!
# The reduce task of `mapreduce/common_reduce.go`

A shallow embedding of `doReduce` and of the methods of `KeyValuePairs`,
together with a model of the two `encoding/json` entry points the function
calls (`json.Unmarshal` into a `[]KeyValue` and `Encoder.Encode` of a
`KeyValue`).

Conventions of the embedding.

* Go strings and file contents are sequences of Unicode scalar values
  (`String`, `List Char`): the embedding speaks about valid UTF-8 text only.
* The file system is an explicit value: a partial map from paths to contents
  and the set of paths `os.Create` succeeds on.  Writing to and closing a file
  that was created never fails.
* `reduceName` is defined in another file of the package and is a parameter.
* `reduceF` is a total function.
* A Go map has no iteration order; the order chosen by one `range` loop is a
  parameter of the run (`MapOrder`).
* A `panic` is a run whose `panicked` flag is set; the run still records the
  file system and the trace at the moment of the panic.
* A slice is a list; an index expression out of range is `none`.  The methods
  of `KeyValuePairs` return the slice they leave instead of changing it in
  place.
-/

namespace MapReduce

/-! ## Data model -/

/-- Modelled from the spec: the record type `KeyValue` is declared in another
file of the package; it is a pair of strings with the fields `Key` and `Value`,
in this order (the source builds it positionally as `KeyValue{key, value}`).
The fields carry no `json` tag: their JSON names are `Key` and `Value`. -/
structure KeyValue where
  Key : String
  Value : String
deriving DecidableEq, Repr

/-! ## `encoding/json`: the encoder -/

/-- The table `hex = "0123456789abcdef"` of the encoder. -/
def hexDigit (n : Nat) : Char :=
  if n < 10 then Char.ofNat (48 + n) else Char.ofNat (87 + n)

/-- What `encodeState.string` (with `escapeHTML` set, the default of an
`Encoder`) writes for one character of a string: a two-character escape for
the quote, the backslash, the newline, the carriage return and the tab, a
`\u00..` escape for the other control characters and for `<`, `>`, `&`, a
`\u202.` escape for the two separators `U+2028` and `U+2029`, and the
character itself otherwise. -/
def escapeChar (c : Char) : List Char :=
  if c = '"' ∨ c = '\\' then ['\\', c]
  else if c = '\n' then ['\\', 'n']
  else if c = '\r' then ['\\', 'r']
  else if c = '\t' then ['\\', 't']
  else if c.toNat < 0x20 ∨ c = '<' ∨ c = '>' ∨ c = '&' then
    ['\\', 'u', '0', '0', hexDigit (c.toNat / 16), hexDigit (c.toNat % 16)]
  else if c.toNat = 0x2028 ∨ c.toNat = 0x2029 then
    ['\\', 'u', '2', '0', '2', hexDigit (c.toNat % 16)]
  else [c]

/-- The body of a string literal: every character escaped. -/
def escapeString (s : List Char) : List Char :=
  s.flatMap escapeChar

/-- A quoted string literal. -/
def quote (s : String) : List Char :=
  '"' :: (escapeString s.data ++ ['"'])

/-- The JSON object `json.Marshal` produces for a `KeyValue`: the two fields in
declaration order under their Go names. -/
def marshalKeyValue (kv : KeyValue) : List Char :=
  "\x7b\"Key\":".data ++ quote kv.Key ++ ",\"Value\":".data ++ quote kv.Value ++ ['}']

/-- The bytes one call `enc.Encode(kv)` writes: the object followed by a
newline. -/
def encodeRecord (kv : KeyValue) : List Char :=
  marshalKeyValue kv ++ ['\n']

/-- The bytes a sequence of `enc.Encode` calls writes: one encoded record after
another. -/
def encodeStream (kvs : List KeyValue) : List Char :=
  kvs.flatMap encodeRecord

/-! ## `encoding/json`: the decoder -/

/-- The tokens of a JSON text.  A number carries no payload: no number is ever
stored by a decode into `[]KeyValue`. -/
inductive Token where
  | lbrace | rbrace | lbrack | rbrack | colon | comma
  | str (s : List Char)
  | num
  | tru
  | fls
  | nul
deriving DecidableEq, Repr

/-- The scanner states inside a number (`stateNeg`, `state0`, `state1`,
`stateDot`, `stateDot0`, `stateE`, `stateESign`, `stateE0`). -/
inductive NumState where
  | neg | zero | int | dot | frac | exp | expSign | expDigits
deriving DecidableEq, Repr

/-- The lexical state of the scanner. -/
inductive LexMode where
  | start
  | inString (raw : List Char)
  | inStringEsc (raw : List Char)
  | inStringEscU (raw : List Char) (seen : Nat)
  | inNumber (s : NumState)
  | inLiteral (rest : List Char) (tok : Token)
deriving DecidableEq, Repr

/-- The scanner: its lexical state and the tokens completed so far, the most
recent one first. -/
structure Lexer where
  mode : LexMode
  toks : List Token
deriving DecidableEq, Repr

/-- The function `isSpace` of the scanner. -/
def isSpace (c : Char) : Bool :=
  c = ' ' || c = '\t' || c = '\r' || c = '\n'

def isDigit (c : Char) : Bool :=
  decide (48 ≤ c.toNat) && decide (c.toNat ≤ 57)

def isDigit19 (c : Char) : Bool :=
  decide (49 ≤ c.toNat) && decide (c.toNat ≤ 57)

/-- A hexadecimal digit, of either case. -/
def isHex (c : Char) : Bool :=
  isDigit c || (decide (97 ≤ c.toNat) && decide (c.toNat ≤ 102))
    || (decide (65 ≤ c.toNat) && decide (c.toNat ≤ 70))

/-- The value of a hexadecimal digit. -/
def hexVal (c : Char) : Nat :=
  if isDigit c then c.toNat - 48
  else if decide (97 ≤ c.toNat) && decide (c.toNat ≤ 102) then c.toNat - 87
  else c.toNat - 55

/-- The function `getu4`: the number a text starts with when it starts with
`\u` and four hexadecimal digits. -/
def getu4 : List Char → Option Nat
  | bs :: u :: a :: b :: c :: d :: _ =>
    if bs = '\\' ∧ u = 'u' ∧ isHex a = true ∧ isHex b = true ∧ isHex c = true ∧
        isHex d = true then
      some (((hexVal a * 16 + hexVal b) * 16 + hexVal c) * 16 + hexVal d)
    else none
  | _ => none

/-- The character a single-letter escape stands for. -/
def unescape (e : Char) : Option Char :=
  if e = '"' ∨ e = '\\' ∨ e = '/' then some e
  else if e = 'b' then some (Char.ofNat 8)
  else if e = 'f' then some (Char.ofNat 12)
  else if e = 'n' then some '\n'
  else if e = 'r' then some '\r'
  else if e = 't' then some '\t'
  else none

/-- The predicate `utf16.IsSurrogate`. -/
def isSurrogate (r : Nat) : Bool :=
  decide (0xD800 ≤ r) && decide (r < 0xE000)

/-- The function `utf16.DecodeRune`: the code point of a surrogate pair, the
replacement character `U+FFFD` when the two halves are no pair. -/
def decodeSurrogates (r1 r2 : Nat) : Nat :=
  if 0xD800 ≤ r1 ∧ r1 < 0xDC00 ∧ 0xDC00 ≤ r2 ∧ r2 < 0xE000 then
    (r1 - 0xD800) * 0x400 + (r2 - 0xDC00) + 0x10000
  else 0xFFFD

/-- One step of the loop of `unquote`: the character the text starts with,
decoded, and the number of characters of the text it takes.  An escape is
replaced by the character it stands for; a `\u` escape of a surrogate half is
combined with a low half that follows it and is the replacement character
`U+FFFD` otherwise. -/
def unquoteHead : List Char → Option (Char × Nat)
  | [] => none
  | c :: rest =>
    if c = '\\' then
      match rest with
      | [] => none
      | e :: _ =>
        if e = 'u' then
          match getu4 (c :: rest) with
          | none => none
          | some rr =>
            if isSurrogate rr then
              match getu4 (rest.drop 5) with
              | none => some (Char.ofNat 0xFFFD, 6)
              | some rr1 =>
                if decodeSurrogates rr rr1 ≠ 0xFFFD then
                  some (Char.ofNat (decodeSurrogates rr rr1), 12)
                else some (Char.ofNat 0xFFFD, 6)
            else some (Char.ofNat rr, 6)
        else
          match unescape e with
          | none => none
          | some x => some (x, 2)
    else if c = '"' ∨ c.toNat < 0x20 then none
    else some (c, 1)

/-- The loop of `unquote`, `skip` characters before its next step. -/
def unquoteFrom : Nat → List Char → Option (List Char)
  | _, [] => some []
  | skip + 1, _ :: rest => unquoteFrom skip rest
  | 0, c :: rest =>
    match unquoteHead (c :: rest) with
    | none => none
    | some (x, size) => (unquoteFrom (size - 1) rest).map (fun s => x :: s)

/-- The function `unquote` on the body of a string literal (the text between
the quotes). -/
def unquote (raw : List Char) : Option (List Char) :=
  unquoteFrom 0 raw

/-- One step inside a number; `none` when the character does not continue the
number. -/
def numStep (s : NumState) (c : Char) : Option NumState :=
  match s with
  | .neg => if c = '0' then some .zero else if isDigit19 c then some .int else none
  | .zero =>
    if c = '.' then some .dot else if c = 'e' ∨ c = 'E' then some .exp else none
  | .int =>
    if isDigit c then some .int
    else if c = '.' then some .dot else if c = 'e' ∨ c = 'E' then some .exp else none
  | .dot => if isDigit c then some .frac else none
  | .frac =>
    if isDigit c then some .frac else if c = 'e' ∨ c = 'E' then some .exp else none
  | .exp =>
    if c = '+' ∨ c = '-' then some .expSign
    else if isDigit c then some .expDigits else none
  | .expSign => if isDigit c then some .expDigits else none
  | .expDigits => if isDigit c then some .expDigits else none

/-- The number states in which the text read so far is a complete number. -/
def numDone (s : NumState) : Bool :=
  match s with
  | .zero | .int | .frac | .expDigits => true
  | _ => false

/-- A character between two tokens (`stateBeginValue` and `stateEndValue`
without their bookkeeping of the nesting, which `parseStep` carries). -/
def startStep (toks : List Token) (c : Char) : Option Lexer :=
  if isSpace c then some ⟨.start, toks⟩
  else if c = '{' then some ⟨.start, .lbrace :: toks⟩
  else if c = '}' then some ⟨.start, .rbrace :: toks⟩
  else if c = '[' then some ⟨.start, .lbrack :: toks⟩
  else if c = ']' then some ⟨.start, .rbrack :: toks⟩
  else if c = ':' then some ⟨.start, .colon :: toks⟩
  else if c = ',' then some ⟨.start, .comma :: toks⟩
  else if c = '"' then some ⟨.inString [], toks⟩
  else if c = '-' then some ⟨.inNumber .neg, toks⟩
  else if c = '0' then some ⟨.inNumber .zero, toks⟩
  else if isDigit19 c then some ⟨.inNumber .int, toks⟩
  else if c = 't' then some ⟨.inLiteral ['r', 'u', 'e'] .tru, toks⟩
  else if c = 'f' then some ⟨.inLiteral ['a', 'l', 's', 'e'] .fls, toks⟩
  else if c = 'n' then some ⟨.inLiteral ['u', 'l', 'l'] .nul, toks⟩
  else none

/-- One character of input; `none` is a syntax error. -/
def lexStep (st : Lexer) (c : Char) : Option Lexer :=
  match st.mode with
  | .start => startStep st.toks c
  | .inString raw =>
    if c = '"' then
      match unquote raw with
      | none => none
      | some s => some ⟨.start, .str s :: st.toks⟩
    else if c = '\\' then some ⟨.inStringEsc raw, st.toks⟩
    else if c.toNat < 0x20 then none
    else some ⟨.inString (raw ++ [c]), st.toks⟩
  | .inStringEsc raw =>
    if c = 'b' ∨ c = 'f' ∨ c = 'n' ∨ c = 'r' ∨ c = 't' ∨ c = '\\' ∨ c = '/' ∨ c = '"' then
      some ⟨.inString (raw ++ ['\\', c]), st.toks⟩
    else if c = 'u' then some ⟨.inStringEscU (raw ++ ['\\', 'u']) 0, st.toks⟩
    else none
  | .inStringEscU raw seen =>
    if isHex c then
      if seen = 3 then some ⟨.inString (raw ++ [c]), st.toks⟩
      else some ⟨.inStringEscU (raw ++ [c]) (seen + 1), st.toks⟩
    else none
  | .inNumber s =>
    match numStep s c with
    | some s1 => some ⟨.inNumber s1, st.toks⟩
    | none => if numDone s then startStep (.num :: st.toks) c else none
  | .inLiteral rest tok =>
    match rest with
    | [] => none
    | r :: rest1 =>
      if c = r then
        match rest1 with
        | [] => some ⟨.start, tok :: st.toks⟩
        | _ :: _ => some ⟨.inLiteral rest1 tok, st.toks⟩
      else none

/-- The end of the input: an unfinished token is a syntax error. -/
def lexEnd (st : Lexer) : Option (List Token) :=
  match st.mode with
  | .start => some st.toks.reverse
  | .inNumber s => if numDone s then some (Token.num :: st.toks).reverse else none
  | _ => none

/-- The scanner run over a text from a given state. -/
def lexRun : Lexer → List Char → Option Lexer
  | st, [] => some st
  | st, c :: cs =>
    match lexStep st c with
    | none => none
    | some st1 => lexRun st1 cs

/-- The tokens of a text. -/
def tokenize (data : List Char) : Option (List Token) :=
  match lexRun ⟨.start, []⟩ data with
  | none => none
  | some st => lexEnd st

/-- A JSON value.  Object members are kept in the order of the text. -/
inductive JValue where
  | null
  | bool (b : Bool)
  | number
  | string (s : List Char)
  | array (elems : List JValue)
  | object (members : List (List Char × JValue))

/-- A container under construction. -/
inductive Frame where
  | arr (elems : List JValue)
  | obj (members : List (List Char × JValue)) (key : List Char)

/-- What the scanner may read next (`stateBeginValue`,
`stateBeginValueOrEmpty`, `stateBeginStringOrEmpty`, `stateBeginString`, the
three cases of `stateEndValue`, and `stateEndTop`). -/
inductive Expect where
  | value
  | valueOrEnd
  | keyOrEnd
  | key
  | colon
  | commaOrEnd
  | done (v : JValue)

/-- The parser: what it expects and the containers that are open, innermost
first. -/
structure Parser where
  expect : Expect
  stack : List Frame

/-- A value is complete: it is the top-level value, the next element of the
innermost array, or the value of the pending key of the innermost object. -/
def complete (v : JValue) (stack : List Frame) : Parser :=
  match stack with
  | [] => ⟨.done v, []⟩
  | .arr elems :: rest => ⟨.commaOrEnd, .arr (elems ++ [v]) :: rest⟩
  | .obj members key :: rest => ⟨.commaOrEnd, .obj (members ++ [(key, v)]) [] :: rest⟩

/-- A token at a place where a value may begin. -/
def beginValue (stack : List Frame) (t : Token) : Option Parser :=
  match t with
  | .lbrace => some ⟨.keyOrEnd, .obj [] [] :: stack⟩
  | .lbrack => some ⟨.valueOrEnd, .arr [] :: stack⟩
  | .str s => some (complete (.string s) stack)
  | .num => some (complete .number stack)
  | .tru => some (complete (.bool true) stack)
  | .fls => some (complete (.bool false) stack)
  | .nul => some (complete .null stack)
  | _ => none

/-- One token of input; `none` is a syntax error. -/
def parseStep (p : Parser) (t : Token) : Option Parser :=
  match p.expect, p.stack, t with
  | .value, stack, t => beginValue stack t
  | .valueOrEnd, .arr elems :: rest, .rbrack => some (complete (.array elems) rest)
  | .valueOrEnd, stack, t => beginValue stack t
  | .keyOrEnd, .obj members _ :: rest, .rbrace => some (complete (.object members) rest)
  | .keyOrEnd, .obj members _ :: rest, .str s => some ⟨.colon, .obj members s :: rest⟩
  | .key, .obj members _ :: rest, .str s => some ⟨.colon, .obj members s :: rest⟩
  | .colon, stack, .colon => some ⟨.value, stack⟩
  | .commaOrEnd, .arr elems :: rest, .comma => some ⟨.value, .arr elems :: rest⟩
  | .commaOrEnd, .arr elems :: rest, .rbrack => some (complete (.array elems) rest)
  | .commaOrEnd, .obj members k :: rest, .comma => some ⟨.key, .obj members k :: rest⟩
  | .commaOrEnd, .obj members _ :: rest, .rbrace => some (complete (.object members) rest)
  | _, _, _ => none

/-- The parser run over a token sequence from a given state. -/
def parseRun : Parser → List Token → Option Parser
  | p, [] => some p
  | p, t :: ts =>
    match parseStep p t with
    | none => none
    | some p1 => parseRun p1 ts

/-- The end of the input: the top-level value must be complete. -/
def parseEnd (p : Parser) : Option JValue :=
  match p.expect with
  | .done v => some v
  | _ => none

/-- The value of a JSON text: what `checkValid` accepts, as a tree. -/
def parseJSON (data : List Char) : Option JValue :=
  match tokenize data with
  | none => none
  | some toks =>
    match parseRun ⟨.value, []⟩ toks with
    | none => none
    | some p => parseEnd p

/-- The representative of a character under simple case folding, as far as
the letters of the two field names are concerned: a lower-case ASCII letter
folds to its capital, the Kelvin sign `U+212A` to `K`, the long s `U+017F`
to `S`. -/
def foldChar (c : Char) : Char :=
  if 97 ≤ c.toNat ∧ c.toNat ≤ 122 then Char.ofNat (c.toNat - 32)
  else if c.toNat = 0x212A then 'K'
  else if c.toNat = 0x017F then 'S'
  else c

/-- An object key selects the struct field whose name it equals up to case
folding. -/
def keyMatches (name : String) (key : List Char) : Bool :=
  key.map foldChar = name.data.map foldChar

/-- Storing a JSON value into a string field: a string is stored, `null`
leaves the field as it is, every other value is an `UnmarshalTypeError`. -/
def storeString (old : String) (v : JValue) : Option String :=
  match v with
  | .string s => some (String.mk s)
  | .null => some old
  | _ => none

/-- One member of an object decoded into a `KeyValue`; a key that matches no
field is skipped. -/
def storeMember (kv : KeyValue) (m : List Char × JValue) : Option KeyValue :=
  if keyMatches "Key" m.1 then
    (storeString kv.Key m.2).map (fun s => { kv with Key := s })
  else if keyMatches "Value" m.1 then
    (storeString kv.Value m.2).map (fun s => { kv with Value := s })
  else some kv

/-- The members of an object stored one after another, a later member
overriding an earlier one. -/
def storeMembers : KeyValue → List (List Char × JValue) → Option KeyValue
  | kv, [] => some kv
  | kv, m :: ms =>
    match storeMember kv m with
    | none => none
    | some kv1 => storeMembers kv1 ms

/-- One array element decoded into a fresh `KeyValue`: an object fills the
fields, `null` leaves the zero value, everything else is an
`UnmarshalTypeError`. -/
def decodeElem (v : JValue) : Option KeyValue :=
  match v with
  | .object members => storeMembers ⟨"", ""⟩ members
  | .null => some ⟨"", ""⟩
  | _ => none

/-- The elements of an array decoded in order. -/
def decodeElems : List JValue → Option (List KeyValue)
  | [] => some []
  | v :: vs =>
    match decodeElem v with
    | none => none
    | some kv =>
      match decodeElems vs with
      | none => none
      | some kvs => some (kv :: kvs)

/-- A JSON value decoded into a `[]KeyValue`: an array element by element,
`null` to the nil slice, everything else is an `UnmarshalTypeError`. -/
def decodeKeyValues (v : JValue) : Option (List KeyValue) :=
  match v with
  | .array elems => decodeElems elems
  | .null => some []
  | _ => none

/-- The call `json.Unmarshal(data, &currKeyValuePairs)`: `none` when it returns
an error (a syntax error or a type error), the decoded slice otherwise. -/
def unmarshal (data : List Char) : Option (List KeyValue) :=
  match parseJSON data with
  | none => none
  | some v => decodeKeyValues v

/-- The text `json.Marshal` produces for a sequence of encoded elements: a JSON
array, the elements separated by commas. -/
def jsonArrayTail : List (List Char) → List Char
  | [] => [']']
  | e :: es => ',' :: (e ++ jsonArrayTail es)

/-- A JSON array of already encoded elements. -/
def jsonArray : List (List Char) → List Char
  | [] => ['[', ']']
  | e :: es => '[' :: (e ++ jsonArrayTail es)

/-- The text `json.Marshal` produces for a non-nil `[]KeyValue`. -/
def marshalKeyValues (kvs : List KeyValue) : List Char :=
  jsonArray (kvs.map marshalKeyValue)

/-! ## The tokens and the value of an encoded record -/

/-- The tokens of the object `marshalKeyValue` writes. -/
def recordTokens (kv : KeyValue) : List Token :=
  [.lbrace, .str "Key".data, .colon, .str kv.Key.data, .comma,
    .str "Value".data, .colon, .str kv.Value.data, .rbrace]

/-- The tokens of the text `jsonArrayTail` writes for encoded records. -/
def arrayTailTokens : List KeyValue → List Token
  | [] => [.rbrack]
  | kv :: kvs => .comma :: (recordTokens kv ++ arrayTailTokens kvs)

/-- The tokens of the text `jsonArray` writes for encoded records. -/
def arrayTokens : List KeyValue → List Token
  | [] => [.lbrack, .rbrack]
  | kv :: kvs => .lbrack :: (recordTokens kv ++ arrayTailTokens kvs)

/-- The JSON value of the object `marshalKeyValue` writes. -/
def recordValue (kv : KeyValue) : JValue :=
  .object [("Key".data, .string kv.Key.data), ("Value".data, .string kv.Value.data)]

/-! ## The file system -/

/-- The file system as far as `doReduce` observes it: the contents of the files
`ioutil.ReadFile` can read (`none` for a path that is missing or unreadable)
and the paths on which `os.Create` succeeds. -/
structure FileSystem where
  contents : String → Option (List Char)
  creatable : String → Bool

/-- The effect of a successful `os.Create(name)`: the file exists and is
empty. -/
def FileSystem.create (fs : FileSystem) (name : String) : FileSystem :=
  { fs with contents := fun p => if p = name then some [] else fs.contents p }

/-- The effect of writing `data` at the end of the file `name`. -/
def FileSystem.write (fs : FileSystem) (name : String) (data : List Char) : FileSystem :=
  { fs with
    contents := fun p => if p = name then some ((fs.contents p).getD [] ++ data) else fs.contents p }

/-! ## The grouping map -/

/-- The Go map `map[string][]string` as an association list with distinct
keys.  The order of the list is the order of first insertion and has no
meaning for the program: a `range` loop visits the entries in an order of its
own (`MapOrder`). -/
abbrev ValuesMap := List (String × List String)

/-- The map read `keyValuesMap[key]`: the nil slice for a missing key. -/
def ValuesMap.lookup : ValuesMap → String → List String
  | [], _ => []
  | (k, vs) :: rest, key => if k = key then vs else ValuesMap.lookup rest key

/-- The map write `keyValuesMap[key] = vs`. -/
def ValuesMap.store : ValuesMap → String → List String → ValuesMap
  | [], key, vs => [(key, vs)]
  | (k, old) :: rest, key, vs =>
    if k = key then (k, vs) :: rest else (k, old) :: ValuesMap.store rest key vs

/-- The order in which one `range` loop over a map visits the entries: each
entry once, in an order the language leaves open. -/
structure MapOrder where
  iter : ValuesMap → ValuesMap
  perm : ∀ m, (iter m).Perm m

/-! ## `doReduce` -/

/-- What surrounds one call of `doReduce`: the naming function of the package,
the file system before the call, and the order the `range` loop over the
grouping map takes in this run. -/
structure Env where
  reduceName : String → Int → Int → String
  fs : FileSystem
  order : MapOrder

/-- What one call of `doReduce` did: the file system it leaves, the paths it
passed to `ioutil.ReadFile`, the calls of `reduceF` with their arguments, the
records it passed to `enc.Encode` (all three in order), and whether it
panicked. -/
structure Run where
  fs : FileSystem
  reads : List String
  calls : List (String × List String)
  written : List KeyValue
  panicked : Bool

/-- The inner loop `for _, x := range currKeyValuePairs`. -/
def appendAll (allKeyValuePairs currKeyValuePairs : List KeyValue) : List KeyValue :=
  currKeyValuePairs.foldl (fun acc x => acc ++ [x]) allKeyValuePairs

/-- The loop over the map tasks (lines 70-83), for the map tasks still to be
visited: the accumulated records, `none` after a panic, and the paths read. -/
def readLoop (env : Env) (jobName : String) (reduceTask : Int) :
    List Nat → List KeyValue → List String → Option (List KeyValue) × List String
  | [], allKeyValuePairs, reads => (some allKeyValuePairs, reads)
  | mapTask :: more, allKeyValuePairs, reads =>
    let currMapTaskReduceFilename := env.reduceName jobName mapTask reduceTask
    match env.fs.contents currMapTaskReduceFilename with
    | none => (none, reads ++ [currMapTaskReduceFilename])
    | some currMapTaskOutput =>
      match unmarshal currMapTaskOutput with
      | none => (none, reads ++ [currMapTaskReduceFilename])
      | some currKeyValuePairs =>
        readLoop env jobName reduceTask more
          (appendAll allKeyValuePairs currKeyValuePairs)
          (reads ++ [currMapTaskReduceFilename])

/-- The grouping loop (lines 87-91). -/
def groupValues (allKeyValuePairs : List KeyValue) : ValuesMap :=
  allKeyValuePairs.foldl
    (fun keyValuesMap keyValuePair =>
      keyValuesMap.store keyValuePair.Key
        (keyValuesMap.lookup keyValuePair.Key ++ [keyValuePair.Value]))
    []

/-- The grouping loop started from a map `m`. -/
def groupFrom (m : ValuesMap) (records : List KeyValue) : ValuesMap :=
  records.foldl
    (fun keyValuesMap keyValuePair =>
      keyValuesMap.store keyValuePair.Key
        (keyValuesMap.lookup keyValuePair.Key ++ [keyValuePair.Value]))
    m

/-- The output loop (lines 99-103) over the entries in the order of the
`range` loop. -/
def writeLoop (outFile : String) (reduceF : String → List String → String) :
    List (String × List String) → Run → Run
  | [], run => run
  | (key, value) :: more, run =>
    let kv : KeyValue := ⟨key, reduceF key value⟩
    writeLoop outFile reduceF more
      { run with
        fs := run.fs.write outFile (encodeRecord kv)
        calls := run.calls ++ [(key, value)]
        written := run.written ++ [kv] }

/-- The function `doReduce`.  The map tasks `0, 1, ..., nMap-1` are visited in
this order (none when `nMap ≤ 0`). -/
def doReduce (env : Env) (jobName : String) (reduceTask : Int) (outFile : String)
    (nMap : Int) (reduceF : String → List String → String) : Run :=
  match readLoop env jobName reduceTask (List.range nMap.toNat) [] [] with
  | (none, reads) => ⟨env.fs, reads, [], [], true⟩
  | (some allKeyValuePairs, reads) =>
    let keyValuesMap := groupValues allKeyValuePairs
    if env.fs.creatable outFile then
      writeLoop outFile reduceF (env.order.iter keyValuesMap)
        ⟨env.fs.create outFile, reads, [], [], false⟩
    else ⟨env.fs, reads, [], [], true⟩

/-! ## The input of a reduce task, as the specification speaks of it -/

/-- The records of the intermediate file of map task `m`: `none` when the file
is missing or unreadable, or when its contents do not decode. -/
def intermediateFile (env : Env) (jobName : String) (reduceTask : Int) (m : Nat) :
    Option (List KeyValue) :=
  match env.fs.contents (env.reduceName jobName m reduceTask) with
  | none => none
  | some data => unmarshal data

/-- The records of the intermediate files `0, ..., nMap-1` taken together, file
after file. -/
def inputRecords (env : Env) (jobName : String) (reduceTask : Int) (nMap : Int) :
    List KeyValue :=
  (List.range nMap.toNat).flatMap
    (fun m => (intermediateFile env jobName reduceTask m).getD [])

/-- The values of the records with key `k`, in the order of the records. -/
def valuesOf (k : String) (records : List KeyValue) : List String :=
  (records.filter (fun kv => kv.Key = k)).map KeyValue.Value

/-! ## Sample inputs -/

/-- A naming function of the shape the package uses. -/
def sampleName (jobName : String) (mapTask reduceTask : Int) : String :=
  "mrtmp." ++ jobName ++ "-" ++ toString mapTask ++ "-" ++ toString reduceTask

/-- The iteration order that follows the order of first insertion. -/
def insertionOrder : MapOrder := ⟨id, fun _ => List.Perm.refl _⟩

/-- The iteration order opposite to the order of first insertion. -/
def reverseOrder : MapOrder := ⟨List.reverse, fun m => List.reverse_perm m⟩

/-- Two intermediate files of the job `"job"` for reduce task `0`; every path
can be created. -/
def sampleFS : FileSystem where
  contents := fun p =>
    if p = "mrtmp.job-0-0" then
      some "[\x7b\"Key\":\"a\",\"Value\":\"1\"\x7d,\x7b\"Key\":\"b\",\"Value\":\"2\"\x7d]".data
    else if p = "mrtmp.job-1-0" then some "[\x7b\"Key\":\"a\",\"Value\":\"3\"\x7d]".data
    else none
  creatable := fun _ => true

/-- One intermediate file, of map task `0` of the job `"job"` for reduce task
`0`, which is empty; every path can be created. -/
def emptyFileFS : FileSystem where
  contents := fun p => if p = "mrtmp.job-0-0" then some [] else none
  creatable := fun _ => true

/-- The records of the two files of `sampleFS`. -/
def sampleFiles (m : Nat) : List KeyValue :=
  if m = 0 then [⟨"a", "1"⟩, ⟨"b", "2"⟩] else [⟨"a", "3"⟩]

/-- The sample call environment: the sample files, visited in insertion
order. -/
def sampleEnv : Env := ⟨sampleName, sampleFS, insertionOrder⟩

/-- A reduce function: the number of values, in unary. -/
def sampleReduce (_key : String) (values : List String) : String :=
  String.mk (values.map (fun _ => '|'))

/-! ## `KeyValuePairs` -/

/-- The slice type `KeyValuePairs`. -/
abbrev KeyValuePairs := List KeyValue

/-- The index expression `keyValuePairs[i]`: `none` when the index is out of
range, which is a run-time panic. -/
def KeyValuePairs.index (keyValuePairs : KeyValuePairs) (i : Int) : Option KeyValue :=
  if 0 ≤ i then keyValuePairs[i.toNat]? else none

/-- The comparison `<` of two Go strings: the lexicographic order of their
characters (on valid UTF-8 the order of the bytes is the order of the code
points). -/
def stringLess (a b : String) : Bool :=
  decide (a.data < b.data)

/-- The method `Len`. -/
def KeyValuePairs.Len (keyValuePairs : KeyValuePairs) : Int :=
  keyValuePairs.length

/-- The method `Swap`: the slice after the exchange, `none` when an index is
out of range.  Both right-hand sides are read before either element is
written. -/
def KeyValuePairs.Swap (keyValuePairs : KeyValuePairs) (i j : Int) : Option KeyValuePairs :=
  match keyValuePairs.index i, keyValuePairs.index j with
  | some atI, some atJ => some ((keyValuePairs.set i.toNat atJ).set j.toNat atI)
  | _, _ => none

/-- The method `Less`: `none` when an index is out of range. -/
def KeyValuePairs.Less (keyValuePairs : KeyValuePairs) (i j : Int) : Option Bool :=
  match keyValuePairs.index i, keyValuePairs.index j with
  | some atI, some atJ => some (stringLess atI.Key atJ.Key)
  | _, _ => none

/-! ## Grouping by sorting and scanning, as the specification describes it -/

/-- The record `a` may stand before the record `b` in a slice that
`sort.Sort` has sorted with the methods of `KeyValuePairs`: the key of `b` is
not smaller than the key of `a`, that is, `Less` of `b` and `a` is false. -/
def keyOrdered (a b : KeyValue) : Prop :=
  stringLess b.Key a.Key = false

instance (a b : KeyValue) : Decidable (keyOrdered a b) :=
  inferInstanceAs (Decidable (stringLess b.Key a.Key = false))

/-- Cutting a list of records into its maximal runs of equal keys: one group
for each run, holding the values of the run in order. -/
def scanRuns : List KeyValue → ValuesMap
  | [] => []
  | kv :: rest =>
    match scanRuns rest with
    | [] => [(kv.Key, [kv.Value])]
    | (k, vs) :: groups =>
      if k = kv.Key then (k, kv.Value :: vs) :: groups
      else (kv.Key, [kv.Value]) :: (k, vs) :: groups

/-- A stable sort by key: insertion sort, which puts a record before the
records with the same key that follow it. -/
def stableSortByKey (records : List KeyValue) : List KeyValue :=
  records.insertionSort keyOrdered

/-! ## Two reduce functions -/

/-- The number a sequence of decimal digits stands for, continuing from
`acc`; `none` when a character is no digit. -/
def parseDigitsFrom (acc : Nat) : List Char → Option Nat
  | [] => some acc
  | c :: cs => if isDigit c then parseDigitsFrom (acc * 10 + (c.toNat - 48)) cs else none

/-- The integer a string stands for: an optional sign and at least one decimal
digit; `none` for every other string.  Integers are unbounded. -/
def atoi (s : String) : Option Int :=
  match s.data with
  | [] => none
  | c :: cs =>
    if c = '-' then
      if cs = [] then none else (parseDigitsFrom 0 cs).map (fun n => -(n : Int))
    else if c = '+' then
      if cs = [] then none else (parseDigitsFrom 0 cs).map (fun n => (n : Int))
    else (parseDigitsFrom 0 (c :: cs)).map (fun n => (n : Int))

/-- The integer value of a value string; a string that is no integer counts as
zero. -/
def intValue (s : String) : Int :=
  (atoi s).getD 0

/-- Modelled from the spec: the reduce function of the scenario
"sum-of-values-as-integers"; it is not part of `common_reduce.go`.  It returns
the decimal rendering of the sum of the values. -/
def sumReduce (_key : String) (values : List String) : String :=
  toString (values.map intValue).sum

/-- Modelled from the spec: the reduce function of the scenario "count"; it is
not part of `common_reduce.go`.  It returns the decimal rendering of the number
of values. -/
def countReduce (_key : String) (values : List String) : String :=
  toString values.length

/-- Three intermediate files of the job `"job"` for reduce task `0`, holding
the record `("k", "v")` twice, twice and once; every path can be created. -/
def repeatFS : FileSystem where
  contents := fun p =>
    if p = "mrtmp.job-0-0" then some (marshalKeyValues [⟨"k", "v"⟩, ⟨"k", "v"⟩])
    else if p = "mrtmp.job-1-0" then some (marshalKeyValues [⟨"k", "v"⟩, ⟨"k", "v"⟩])
    else if p = "mrtmp.job-2-0" then some (marshalKeyValues [⟨"k", "v"⟩])
    else none
  creatable := fun _ => true

/-- A slice of three records. -/
def samplePairs : KeyValuePairs :=
  [⟨"b", "2"⟩, ⟨"a", "1"⟩, ⟨"b", "3"⟩]

/-! ## Lemmas on the encoder and the decoder -/

theorem lexRun_append (xs ys : List Char) :
    ∀ st : Lexer, lexRun st (xs ++ ys) =
      match lexRun st xs with
      | none => none
      | some st1 => lexRun st1 ys := by
  induction xs with
  | nil => intro st; simp [lexRun]
  | cons c cs ih =>
    intro st
    simp only [List.cons_append, lexRun]
    cases lexStep st c with
    | none => rfl
    | some st1 => exact ih st1

theorem lexRun_space (toks : List Token) (pad : List Char)
    (hpad : ∀ c ∈ pad, isSpace c = true) :
    lexRun ⟨.start, toks⟩ pad = some ⟨.start, toks⟩ := by
  induction pad with
  | nil => rfl
  | cons c cs ih =>
    have hc : isSpace c = true := hpad c (by simp)
    simp only [lexRun, lexStep, startStep, hc, if_true]
    exact ih (fun d hd => hpad d (by simp [hd]))

theorem hexDigit_spec : ∀ n : Nat, n < 16 →
    isHex (hexDigit n) = true ∧ hexVal (hexDigit n) = n := by
  decide

theorem isHex_hexDigit (n : Nat) (h : n < 16) : isHex (hexDigit n) = true :=
  (hexDigit_spec n h).1

theorem hexVal_hexDigit (n : Nat) (h : n < 16) : hexVal (hexDigit n) = n :=
  (hexDigit_spec n h).2

theorem lexRun_uescape (raw : List Char) (toks : List Token) (a b c d : Char)
    (ha : isHex a = true) (hb : isHex b = true) (hc : isHex c = true) (hd : isHex d = true) :
    lexRun ⟨.inString raw, toks⟩ ['\\', 'u', a, b, c, d] =
      some ⟨.inString (raw ++ ['\\', 'u', a, b, c, d]), toks⟩ := by
  simp [lexRun, lexStep, ha, hb, hc, hd]

theorem lexRun_escapeChar (raw : List Char) (toks : List Token) (c : Char) :
    lexRun ⟨.inString raw, toks⟩ (escapeChar c) =
      some ⟨.inString (raw ++ escapeChar c), toks⟩ := by
  unfold escapeChar
  split
  · rename_i h
    rcases h with rfl | rfl <;> simp [lexRun, lexStep]
  split
  · rename_i h; subst h; simp [lexRun, lexStep]
  split
  · rename_i h; subst h; simp [lexRun, lexStep]
  split
  · rename_i h; subst h; simp [lexRun, lexStep]
  split
  · rename_i h1 h2 h3 h4 h
    have hlt : c.toNat / 16 < 16 := by
      rcases h with h | rfl | rfl | rfl
      · omega
      · decide
      · decide
      · decide
    have hmod : c.toNat % 16 < 16 := Nat.mod_lt _ (by decide)
    exact lexRun_uescape raw toks _ _ _ _ (by decide) (by decide) (isHex_hexDigit _ hlt)
      (isHex_hexDigit _ hmod)
  split
  · have hmod : c.toNat % 16 < 16 := Nat.mod_lt _ (by decide)
    exact lexRun_uescape raw toks _ _ _ _ (by decide) (by decide) (by decide)
      (isHex_hexDigit _ hmod)
  · rename_i h1 h2 h3 h4 h5 h6
    simp only [not_or] at h1 h5
    have h7 : ¬ c.toNat < 32 := h5.1
    simp [lexRun, lexStep, h1.1, h1.2, h7]

theorem lexRun_escapeString (s : List Char) :
    ∀ (raw : List Char) (toks : List Token),
      lexRun ⟨.inString raw, toks⟩ (escapeString s) =
        some ⟨.inString (raw ++ escapeString s), toks⟩ := by
  induction s with
  | nil => intro raw toks; simp [escapeString, lexRun]
  | cons c cs ih =>
    intro raw toks
    have hcons : escapeString (c :: cs) = escapeChar c ++ escapeString cs := by
      simp [escapeString]
    rw [hcons, lexRun_append, lexRun_escapeChar]
    simp only []
    rw [ih, List.append_assoc]

theorem unquoteFrom_skip (xs rest : List Char) :
    unquoteFrom xs.length (xs ++ rest) = unquoteFrom 0 rest := by
  induction xs with
  | nil => simp
  | cons x xs ih => simpa [unquoteFrom] using ih

theorem unquoteFrom_head (xs rest : List Char) (ch : Char) (hne : xs ≠ [])
    (hhead : unquoteHead (xs ++ rest) = some (ch, xs.length)) :
    unquoteFrom 0 (xs ++ rest) = (unquoteFrom 0 rest).map (fun s => ch :: s) := by
  cases xs with
  | nil => exact absurd rfl hne
  | cons x xs =>
    simp only [List.cons_append] at hhead ⊢
    simp only [unquoteFrom, hhead, List.length_cons, Nat.add_sub_cancel]
    rw [unquoteFrom_skip]

theorem getu4_hex (a b : Nat) (ha : a < 16) (hb : b < 16) (rest : List Char) :
    getu4 ('\\' :: 'u' :: '0' :: '0' :: hexDigit a :: hexDigit b :: rest) =
      some (a * 16 + b) := by
  have h0 : isHex '0' = true := by decide
  have hv : hexVal '0' = 0 := by decide
  simp [getu4, h0, hv, isHex_hexDigit _ ha, isHex_hexDigit _ hb, hexVal_hexDigit _ ha,
    hexVal_hexDigit _ hb]

theorem getu4_hex202 (b : Nat) (hb : b < 16) (rest : List Char) :
    getu4 ('\\' :: 'u' :: '2' :: '0' :: '2' :: hexDigit b :: rest) = some (0x2020 + b) := by
  have h0 : isHex '0' = true := by decide
  have hv : hexVal '0' = 0 := by decide
  have h2 : isHex '2' = true := by decide
  have hv2 : hexVal '2' = 2 := by decide
  simp [getu4, h0, hv, h2, hv2, isHex_hexDigit _ hb, hexVal_hexDigit _ hb]

theorem unquoteHead_uescape (a b c d : Char) (rest : List Char) (n : Nat)
    (hn : getu4 ('\\' :: 'u' :: a :: b :: c :: d :: rest) = some n)
    (hs : isSurrogate n = false) :
    unquoteHead ('\\' :: 'u' :: a :: b :: c :: d :: rest) = some (Char.ofNat n, 6) := by
  simp [unquoteHead, hn, hs]

theorem unquoteHead_escapeChar (c : Char) (rest : List Char) :
    unquoteHead (escapeChar c ++ rest) = some (c, (escapeChar c).length) := by
  unfold escapeChar
  split
  · rename_i h
    rcases h with rfl | rfl <;> simp [unquoteHead, unescape]
  split
  · rename_i h; subst h; simp [unquoteHead, unescape]
  split
  · rename_i h; subst h; simp [unquoteHead, unescape]
  split
  · rename_i h; subst h; simp [unquoteHead, unescape]
  split
  · rename_i h1 h2 h3 h4 h
    have hlt : c.toNat / 16 < 16 := by
      rcases h with h | rfl | rfl | rfl
      · omega
      · decide
      · decide
      · decide
    have hmod : c.toNat % 16 < 16 := Nat.mod_lt _ (by decide)
    have hval : c.toNat / 16 * 16 + c.toNat % 16 = c.toNat := by omega
    have hsmall : c.toNat < 0xD800 := by
      rcases h with h | rfl | rfl | rfl
      · omega
      · decide
      · decide
      · decide
    have hg := getu4_hex _ _ hlt hmod rest
    rw [hval] at hg
    have hs : isSurrogate c.toNat = false := by
      simp [isSurrogate]; omega
    simp only [List.cons_append, List.nil_append]
    rw [unquoteHead_uescape _ _ _ _ rest c.toNat hg hs]
    simp [Char.ofNat_toNat]
  split
  · rename_i h1 h2 h3 h4 h5 h
    have hmod : c.toNat % 16 < 16 := Nat.mod_lt _ (by decide)
    have hval : 0x2020 + c.toNat % 16 = c.toNat := by omega
    have hg := getu4_hex202 _ hmod rest
    rw [hval] at hg
    have hs : isSurrogate c.toNat = false := by
      simp [isSurrogate]; omega
    simp only [List.cons_append, List.nil_append]
    rw [unquoteHead_uescape _ _ _ _ rest c.toNat hg hs]
    simp [Char.ofNat_toNat]
  · rename_i h1 h2 h3 h4 h5 h6
    simp only [not_or] at h1 h5
    have h7 : ¬ c.toNat < 32 := h5.1
    simp [unquoteHead, h1.1, h1.2, h7]

theorem escapeChar_ne_nil (c : Char) : escapeChar c ≠ [] := by
  unfold escapeChar
  repeat' split
  all_goals simp

theorem unquoteFrom_escapeString (s : List Char) :
    unquoteFrom 0 (escapeString s) = some s := by
  induction s with
  | nil => simp [escapeString, unquoteFrom]
  | cons c cs ih =>
    have hcons : escapeString (c :: cs) = escapeChar c ++ escapeString cs := by
      simp [escapeString]
    rw [hcons, unquoteFrom_head _ _ c (escapeChar_ne_nil c) (unquoteHead_escapeChar c _), ih]
    rfl

/-- A quoted string is read back as one string token. -/
theorem lexRun_quote (s : String) (toks : List Token) :
    lexRun ⟨.start, toks⟩ (quote s) = some ⟨.start, .str s.data :: toks⟩ := by
  have h1 : lexRun ⟨.start, toks⟩ ['"'] = some ⟨.inString [], toks⟩ := rfl
  have h2 : quote s = ['"'] ++ (escapeString s.data ++ ['"']) := rfl
  rw [h2, lexRun_append, h1]
  simp only []
  rw [lexRun_append, lexRun_escapeString]
  simp [lexRun, lexStep, unquote, unquoteFrom_escapeString]

/-- An encoded record is read back as its nine tokens. -/
theorem lexRun_marshalKeyValue (kv : KeyValue) (toks : List Token) :
    lexRun ⟨.start, toks⟩ (marshalKeyValue kv) =
      some ⟨.start, (recordTokens kv).reverse ++ toks⟩ := by
  have h1 : ∀ t : List Token, lexRun ⟨.start, t⟩ "\x7b\"Key\":".data =
      some ⟨.start, .colon :: .str "Key".data :: .lbrace :: t⟩ := fun _ => rfl
  have h2 : ∀ t : List Token, lexRun ⟨.start, t⟩ ",\"Value\":".data =
      some ⟨.start, .colon :: .str "Value".data :: .comma :: t⟩ := fun _ => rfl
  have h3 : ∀ t : List Token, lexRun ⟨.start, t⟩ ['}'] = some ⟨.start, .rbrace :: t⟩ :=
    fun _ => rfl
  unfold marshalKeyValue
  simp only [List.append_assoc]
  rw [lexRun_append, h1]
  simp only []
  rw [lexRun_append, lexRun_quote]
  simp only []
  rw [lexRun_append, h2]
  simp only []
  rw [lexRun_append, lexRun_quote]
  simp only []
  rw [h3]
  simp [recordTokens]

/-- An encoded record followed by white space. -/
theorem lexRun_padded (kv : KeyValue) (pad : List Char)
    (hpad : ∀ c ∈ pad, isSpace c = true) (toks : List Token) :
    lexRun ⟨.start, toks⟩ (marshalKeyValue kv ++ pad) =
      some ⟨.start, (recordTokens kv).reverse ++ toks⟩ := by
  rw [lexRun_append, lexRun_marshalKeyValue]
  simp only []
  exact lexRun_space _ pad hpad

theorem lexRun_arrayTail (pad : List Char) (hpad : ∀ c ∈ pad, isSpace c = true)
    (kvs : List KeyValue) :
    ∀ toks : List Token,
      lexRun ⟨.start, toks⟩ (jsonArrayTail (kvs.map (fun kv => marshalKeyValue kv ++ pad))) =
        some ⟨.start, (arrayTailTokens kvs).reverse ++ toks⟩ := by
  induction kvs with
  | nil => intro toks; rfl
  | cons kv kvs ih =>
    intro toks
    have h1 : ∀ t : List Token, lexRun ⟨.start, t⟩ [','] = some ⟨.start, .comma :: t⟩ :=
      fun _ => rfl
    have hshape : jsonArrayTail ((kv :: kvs).map (fun kv => marshalKeyValue kv ++ pad)) =
        [','] ++ ((marshalKeyValue kv ++ pad) ++
          jsonArrayTail (kvs.map (fun kv => marshalKeyValue kv ++ pad))) := rfl
    rw [hshape, lexRun_append, h1]
    simp only []
    rw [lexRun_append, lexRun_padded kv pad hpad]
    simp only []
    rw [ih]
    simp [arrayTailTokens]

/-- A JSON array of encoded records, each followed by white space, is read as
the tokens of the array. -/
theorem tokenize_jsonArray (pad : List Char) (hpad : ∀ c ∈ pad, isSpace c = true)
    (kvs : List KeyValue) :
    tokenize (jsonArray (kvs.map (fun kv => marshalKeyValue kv ++ pad))) =
      some (arrayTokens kvs) := by
  cases kvs with
  | nil => rfl
  | cons kv kvs =>
    have h1 : ∀ t : List Token, lexRun ⟨.start, t⟩ ['['] = some ⟨.start, .lbrack :: t⟩ :=
      fun _ => rfl
    have hshape : jsonArray ((kv :: kvs).map (fun kv => marshalKeyValue kv ++ pad)) =
        ['['] ++ ((marshalKeyValue kv ++ pad) ++
          jsonArrayTail (kvs.map (fun kv => marshalKeyValue kv ++ pad))) := rfl
    unfold tokenize
    rw [hshape, lexRun_append, h1]
    simp only []
    rw [lexRun_append, lexRun_padded kv pad hpad]
    simp only []
    rw [lexRun_arrayTail pad hpad]
    simp [lexEnd, arrayTokens]

theorem parseRun_append (xs ys : List Token) :
    ∀ p : Parser, parseRun p (xs ++ ys) =
      match parseRun p xs with
      | none => none
      | some p1 => parseRun p1 ys := by
  induction xs with
  | nil => intro p; simp [parseRun]
  | cons t ts ih =>
    intro p
    simp only [List.cons_append, parseRun]
    cases parseStep p t with
    | none => rfl
    | some p1 => exact ih p1

theorem parseRun_record (kv : KeyValue) (elems : List JValue) (rest : List Frame) :
    parseRun ⟨.value, .arr elems :: rest⟩ (recordTokens kv) =
      some ⟨.commaOrEnd, .arr (elems ++ [recordValue kv]) :: rest⟩ := rfl

theorem parseRun_first_record (kv : KeyValue) (elems : List JValue) (rest : List Frame) :
    parseRun ⟨.valueOrEnd, .arr elems :: rest⟩ (recordTokens kv) =
      some ⟨.commaOrEnd, .arr (elems ++ [recordValue kv]) :: rest⟩ := rfl

theorem parseRun_arrayTail (kvs : List KeyValue) :
    ∀ elems : List JValue,
      parseRun ⟨.commaOrEnd, [.arr elems]⟩ (arrayTailTokens kvs) =
        some ⟨.done (.array (elems ++ kvs.map recordValue)), []⟩ := by
  induction kvs with
  | nil => intro elems; simp [arrayTailTokens, parseRun, parseStep, complete]
  | cons kv kvs ih =>
    intro elems
    have h1 : parseRun ⟨.commaOrEnd, [.arr elems]⟩ [.comma] = some ⟨.value, [.arr elems]⟩ := rfl
    have hshape : arrayTailTokens (kv :: kvs) =
        [.comma] ++ (recordTokens kv ++ arrayTailTokens kvs) := rfl
    rw [hshape, parseRun_append, h1]
    simp only []
    rw [parseRun_append, parseRun_record]
    simp only []
    rw [ih]
    simp

theorem parseRun_arrayTokens (kvs : List KeyValue) :
    parseRun ⟨.value, []⟩ (arrayTokens kvs) =
      some ⟨.done (.array (kvs.map recordValue)), []⟩ := by
  cases kvs with
  | nil => rfl
  | cons kv kvs =>
    have h1 : parseRun ⟨.value, []⟩ [.lbrack] = some ⟨.valueOrEnd, [.arr []]⟩ := rfl
    have hshape : arrayTokens (kv :: kvs) =
        [.lbrack] ++ (recordTokens kv ++ arrayTailTokens kvs) := rfl
    rw [hshape, parseRun_append, h1]
    simp only []
    rw [parseRun_append, parseRun_first_record]
    simp only []
    rw [parseRun_arrayTail]
    simp

theorem decodeElem_recordValue (kv : KeyValue) : decodeElem (recordValue kv) = some kv := by
  have h1 : keyMatches "Key" "Key".data = true := by decide
  have h2 : keyMatches "Key" "Value".data = false := by decide
  have h3 : keyMatches "Value" "Value".data = true := by decide
  simp [decodeElem, recordValue, storeMembers, storeMember, storeString, h1, h2, h3]

theorem decodeElems_recordValue (kvs : List KeyValue) :
    decodeElems (kvs.map recordValue) = some kvs := by
  induction kvs with
  | nil => rfl
  | cons kv kvs ih => simp [decodeElems, decodeElem_recordValue, ih]

/-- The decoder reads a JSON array of encoded records, each followed by white
space, as the records. -/
theorem unmarshal_jsonArray (pad : List Char) (hpad : ∀ c ∈ pad, isSpace c = true)
    (kvs : List KeyValue) :
    unmarshal (jsonArray (kvs.map (fun kv => marshalKeyValue kv ++ pad))) = some kvs := by
  simp [unmarshal, parseJSON, tokenize_jsonArray pad hpad, parseRun_arrayTokens, parseEnd,
    decodeKeyValues, decodeElems_recordValue]

theorem lexRun_encodeStream (kvs : List KeyValue) :
    ∀ toks : List Token,
      lexRun ⟨.start, toks⟩ (encodeStream kvs) =
        some ⟨.start, (kvs.flatMap recordTokens).reverse ++ toks⟩ := by
  induction kvs with
  | nil => intro toks; rfl
  | cons kv kvs ih =>
    intro toks
    have hshape : encodeStream (kv :: kvs) = (marshalKeyValue kv ++ ['\n']) ++ encodeStream kvs := by
      simp [encodeStream, encodeRecord]
    rw [hshape, lexRun_append, lexRun_padded kv ['\n'] (by decide)]
    simp only []
    rw [ih]
    simp

theorem tokenize_encodeStream (kvs : List KeyValue) :
    tokenize (encodeStream kvs) = some (kvs.flatMap recordTokens) := by
  simp [tokenize, lexRun_encodeStream, lexEnd]

theorem parseRun_top_record (kv : KeyValue) :
    parseRun ⟨.value, []⟩ (recordTokens kv) = some ⟨.done (recordValue kv), []⟩ := rfl

/-- The decoder rejects every sequence of records written one after another
by the output encoder. -/
theorem unmarshal_encodeStream (kvs : List KeyValue) : unmarshal (encodeStream kvs) = none := by
  unfold unmarshal parseJSON
  rw [tokenize_encodeStream]
  cases kvs with
  | nil => rfl
  | cons kv kvs =>
    cases kvs with
    | nil =>
      have h : [kv].flatMap recordTokens = recordTokens kv := by simp
      simp only [h, parseRun_top_record]
      rfl
    | cons kv2 kvs =>
      have h : (kv :: kv2 :: kvs).flatMap recordTokens =
          recordTokens kv ++ (Token.lbrace :: ((recordTokens kv2).tail ++
            kvs.flatMap recordTokens)) := by
        simp [recordTokens]
      simp only [h, parseRun_append, parseRun_top_record]
      rfl

theorem unmarshal_marshalKeyValues (kvs : List KeyValue) :
    unmarshal (marshalKeyValues kvs) = some kvs := by
  have h := unmarshal_jsonArray [] (by simp) kvs
  simpa [marshalKeyValues] using h

/-! ## Lemmas on the loops of `doReduce` -/

theorem appendAll_eq (curr : List KeyValue) :
    ∀ all : List KeyValue, appendAll all curr = all ++ curr := by
  induction curr with
  | nil => intro all; simp [appendAll]
  | cons x xs ih =>
    intro all
    have h := ih (all ++ [x])
    simp only [appendAll, List.foldl_cons] at h ⊢
    rw [h]; simp

theorem intermediateFile_none (env : Env) (jobName : String) (reduceTask : Int) (m : Nat)
    (h : env.fs.contents (env.reduceName jobName m reduceTask) = none) :
    intermediateFile env jobName reduceTask m = none := by
  simp [intermediateFile, h]

theorem intermediateFile_some (env : Env) (jobName : String) (reduceTask : Int) (m : Nat)
    (data : List Char)
    (h : env.fs.contents (env.reduceName jobName m reduceTask) = some data) :
    intermediateFile env jobName reduceTask m = unmarshal data := by
  simp [intermediateFile, h]

/-- The records the reading loop accumulates: everything decoded, file after
file, unless one file fails. -/
theorem readLoop_fst (env : Env) (jobName : String) (reduceTask : Int) :
    ∀ (ms : List Nat) (all : List KeyValue) (reads : List String),
      (readLoop env jobName reduceTask ms all reads).1 =
        if ms.all (fun m => (intermediateFile env jobName reduceTask m).isSome) then
          some (all ++ ms.flatMap
            (fun m => (intermediateFile env jobName reduceTask m).getD []))
        else none := by
  intro ms
  induction ms with
  | nil => intro all reads; simp [readLoop]
  | cons m ms ih =>
    intro all reads
    cases hc : env.fs.contents (env.reduceName jobName m reduceTask) with
    | none => simp [readLoop, hc, intermediateFile_none env jobName reduceTask m hc]
    | some data =>
      have hi := intermediateFile_some env jobName reduceTask m data hc
      cases hu : unmarshal data with
      | none => simp [readLoop, hc, hi, hu]
      | some kvs =>
        simp only [readLoop, hc, hu, ih, appendAll_eq]
        simp [hi, hu]

/-- The paths the reading loop reads when no file fails: one per map task, in
the order of the map tasks. -/
theorem readLoop_snd (env : Env) (jobName : String) (reduceTask : Int) :
    ∀ (ms : List Nat) (all : List KeyValue) (reads : List String),
      (readLoop env jobName reduceTask ms all reads).1 ≠ none →
      (readLoop env jobName reduceTask ms all reads).2 =
        reads ++ ms.map (fun m : Nat => env.reduceName jobName (m : Int) reduceTask) := by
  intro ms
  induction ms with
  | nil => intro all reads _; simp [readLoop]
  | cons m ms ih =>
    intro all reads
    cases hc : env.fs.contents (env.reduceName jobName m reduceTask) with
    | none => simp [readLoop, hc]
    | some data =>
      cases hu : unmarshal data with
      | none => simp [readLoop, hc, hu]
      | some kvs =>
        intro h
        simp only [readLoop, hc, hu] at h ⊢
        rw [ih _ _ h]; simp

theorem lookup_store (m : ValuesMap) (k : String) (vs : List String) (k1 : String) :
    (m.store k vs).lookup k1 = if k1 = k then vs else m.lookup k1 := by
  induction m with
  | nil =>
    by_cases h : k1 = k
    · simp [ValuesMap.store, ValuesMap.lookup, h]
    · have h1 : ¬ k = k1 := fun e => h e.symm
      simp [ValuesMap.store, ValuesMap.lookup, h, h1]
  | cons e rest ih =>
    obtain ⟨k0, old⟩ := e
    by_cases h0 : k0 = k
    · subst h0
      by_cases h : k1 = k0
      · simp [ValuesMap.store, ValuesMap.lookup, h]
      · have h1 : ¬ k0 = k1 := fun e => h e.symm
        simp [ValuesMap.store, ValuesMap.lookup, h, h1]
    · by_cases h : k1 = k
      · subst h
        simp [ValuesMap.store, ValuesMap.lookup, h0, ih]
      · by_cases h2 : k0 = k1
        · subst h2
          simp [ValuesMap.store, ValuesMap.lookup, h0]
        · simp [ValuesMap.store, ValuesMap.lookup, h0, h2, ih, h]

theorem keys_store (m : ValuesMap) (k : String) (vs : List String) :
    (m.store k vs).map Prod.fst =
      if k ∈ m.map Prod.fst then m.map Prod.fst else m.map Prod.fst ++ [k] := by
  induction m with
  | nil => simp [ValuesMap.store]
  | cons e rest ih =>
    obtain ⟨k0, old⟩ := e
    by_cases h0 : k0 = k
    · simp [ValuesMap.store, h0]
    · have h1 : ¬ k = k0 := fun e => h0 e.symm
      simp only [ValuesMap.store, h0, if_false, List.map_cons, ih, List.mem_cons, h1, false_or]
      split <;> simp

/-- An entry of a map with distinct keys is what a lookup of its key returns. -/
theorem mem_iff_lookup (m : ValuesMap) (hn : (m.map Prod.fst).Nodup) (k : String)
    (vs : List String) :
    (k, vs) ∈ m ↔ k ∈ m.map Prod.fst ∧ m.lookup k = vs := by
  induction m with
  | nil => simp
  | cons e rest ih =>
    obtain ⟨k0, old⟩ := e
    simp only [List.map_cons, List.nodup_cons] at hn
    by_cases h0 : k0 = k
    · subst h0
      have hnot : ∀ ws, (k0, ws) ∉ rest := fun ws hmem =>
        hn.1 (List.mem_map_of_mem Prod.fst hmem)
      simp [ValuesMap.lookup, hnot, eq_comm]
    · have h1 : ¬ k = k0 := fun e => h0 e.symm
      simp [ValuesMap.lookup, h0, h1, ih hn.2]

theorem groupFrom_lookup (records : List KeyValue) :
    ∀ (m : ValuesMap) (k : String),
      (groupFrom m records).lookup k = m.lookup k ++ valuesOf k records := by
  induction records with
  | nil => intro m k; simp [groupFrom, valuesOf]
  | cons kv rest ih =>
    intro m k
    have h := ih (m.store kv.Key (m.lookup kv.Key ++ [kv.Value])) k
    simp only [groupFrom, List.foldl_cons] at h ⊢
    rw [h, lookup_store]
    by_cases hk : k = kv.Key
    · subst hk; simp [valuesOf]
    · have hk1 : ¬ kv.Key = k := fun e => hk e.symm
      simp [valuesOf, hk, hk1]

theorem groupFrom_keys_nodup (records : List KeyValue) :
    ∀ m : ValuesMap, (m.map Prod.fst).Nodup → ((groupFrom m records).map Prod.fst).Nodup := by
  induction records with
  | nil => intro m h; simpa [groupFrom] using h
  | cons kv rest ih =>
    intro m h
    have := ih (m.store kv.Key (m.lookup kv.Key ++ [kv.Value])) (by
      rw [keys_store]
      split
      · exact h
      · rename_i hk
        exact List.Nodup.append h (by simp) (by simpa using hk))
    simpa [groupFrom] using this

theorem groupFrom_keys_mem (records : List KeyValue) :
    ∀ (m : ValuesMap) (k : String),
      k ∈ (groupFrom m records).map Prod.fst ↔
        k ∈ m.map Prod.fst ∨ k ∈ records.map KeyValue.Key := by
  induction records with
  | nil => intro m k; simp [groupFrom]
  | cons kv rest ih =>
    intro m k
    have h := ih (m.store kv.Key (m.lookup kv.Key ++ [kv.Value])) k
    simp only [groupFrom, List.foldl_cons] at h ⊢
    rw [h, keys_store]
    split
    · rename_i hk
      constructor
      · rintro (h1 | h1)
        · exact Or.inl h1
        · exact Or.inr (by simp [h1])
      · rintro (h1 | h1)
        · exact Or.inl h1
        · simp only [List.map_cons, List.mem_cons] at h1
          rcases h1 with h1 | h1
          · exact Or.inl (h1 ▸ hk)
          · exact Or.inr h1
    · simp only [List.mem_append, List.mem_singleton, List.map_cons, List.mem_cons]
      tauto

theorem groupValues_eq (records : List KeyValue) : groupValues records = groupFrom [] records :=
  rfl

theorem groupValues_keys_nodup (records : List KeyValue) :
    ((groupValues records).map Prod.fst).Nodup :=
  groupFrom_keys_nodup records [] (by simp)

theorem groupValues_keys_mem (records : List KeyValue) (k : String) :
    k ∈ (groupValues records).map Prod.fst ↔ k ∈ records.map KeyValue.Key := by
  rw [groupValues_eq, groupFrom_keys_mem]; simp

/-- The entries of the grouping map: one for each key of the records, holding
the values of the records with that key in their order. -/
theorem groupValues_mem (records : List KeyValue) (k : String) (vs : List String) :
    (k, vs) ∈ groupValues records ↔
      k ∈ records.map KeyValue.Key ∧ vs = valuesOf k records := by
  rw [mem_iff_lookup _ (groupValues_keys_nodup records), groupValues_keys_mem,
    groupValues_eq, groupFrom_lookup]
  simp [ValuesMap.lookup, eq_comm]


theorem writeLoop_calls (outFile : String) (reduceF : String → List String → String)
    (entries : List (String × List String)) :
    ∀ run : Run, (writeLoop outFile reduceF entries run).calls = run.calls ++ entries := by
  induction entries with
  | nil => intro run; simp [writeLoop]
  | cons e es ih => intro run; obtain ⟨k, vs⟩ := e; simp [writeLoop, ih]

theorem writeLoop_written (outFile : String) (reduceF : String → List String → String)
    (entries : List (String × List String)) :
    ∀ run : Run, (writeLoop outFile reduceF entries run).written =
      run.written ++ entries.map (fun e => (⟨e.1, reduceF e.1 e.2⟩ : KeyValue)) := by
  induction entries with
  | nil => intro run; simp [writeLoop]
  | cons e es ih => intro run; obtain ⟨k, vs⟩ := e; simp [writeLoop, ih]

theorem writeLoop_reads (outFile : String) (reduceF : String → List String → String)
    (entries : List (String × List String)) :
    ∀ run : Run, (writeLoop outFile reduceF entries run).reads = run.reads := by
  induction entries with
  | nil => intro run; simp [writeLoop]
  | cons e es ih => intro run; obtain ⟨k, vs⟩ := e; simp [writeLoop, ih]

theorem writeLoop_panicked (outFile : String) (reduceF : String → List String → String)
    (entries : List (String × List String)) :
    ∀ run : Run, (writeLoop outFile reduceF entries run).panicked = run.panicked := by
  induction entries with
  | nil => intro run; simp [writeLoop]
  | cons e es ih => intro run; obtain ⟨k, vs⟩ := e; simp [writeLoop, ih]

theorem writeLoop_creatable (outFile : String) (reduceF : String → List String → String)
    (entries : List (String × List String)) :
    ∀ run : Run, (writeLoop outFile reduceF entries run).fs.creatable = run.fs.creatable := by
  induction entries with
  | nil => intro run; simp [writeLoop]
  | cons e es ih => intro run; obtain ⟨k, vs⟩ := e; simp [writeLoop, ih, FileSystem.write]

/-- The output loop touches no path but `outFile`. -/
theorem writeLoop_contents_other (outFile : String) (reduceF : String → List String → String)
    (entries : List (String × List String)) (p : String) (hp : p ≠ outFile) :
    ∀ run : Run, (writeLoop outFile reduceF entries run).fs.contents p = run.fs.contents p := by
  induction entries with
  | nil => intro run; simp [writeLoop]
  | cons e es ih => intro run; obtain ⟨k, vs⟩ := e; simp [writeLoop, ih, FileSystem.write, hp]

/-- The output loop appends the encoded records to `outFile`, in order. -/
theorem writeLoop_contents_out (outFile : String) (reduceF : String → List String → String)
    (entries : List (String × List String)) :
    ∀ (run : Run) (old : List Char), run.fs.contents outFile = some old →
      (writeLoop outFile reduceF entries run).fs.contents outFile =
        some (old ++
          encodeStream (entries.map (fun e => (⟨e.1, reduceF e.1 e.2⟩ : KeyValue)))) := by
  induction entries with
  | nil => intro run old h; simp [writeLoop, encodeStream, h]
  | cons e es ih =>
    intro run old h
    obtain ⟨k, vs⟩ := e
    simp only [writeLoop]
    rw [ih _ (old ++ encodeRecord ⟨k, reduceF k vs⟩) (by simp [FileSystem.write, h])]
    simp [encodeStream]

theorem mem_inputKeys (env : Env) (jobName : String) (reduceTask : Int) (nMap : Int)
    (k : String) :
    k ∈ (inputRecords env jobName reduceTask nMap).map KeyValue.Key ↔
      ∃ m : Nat, (m : Int) < nMap ∧ ∃ kvs,
        intermediateFile env jobName reduceTask m = some kvs ∧ ∃ kv ∈ kvs, kv.Key = k := by
  simp only [inputRecords, List.mem_map, List.mem_flatMap, List.mem_range]
  constructor
  · rintro ⟨kv, ⟨m, hm, hkv⟩, rfl⟩
    cases hf : intermediateFile env jobName reduceTask m with
    | none => simp [hf] at hkv
    | some kvs =>
      simp only [hf, Option.getD_some] at hkv
      exact ⟨m, by omega, kvs, hf, kv, hkv, rfl⟩
  · rintro ⟨m, hm, kvs, hf, kv, hkv, rfl⟩
    exact ⟨kv, ⟨m, by omega, by simp [hf, hkv]⟩, rfl⟩

/-- The run of `doReduce` when every intermediate file decodes and `outFile`
can be created. -/
theorem doReduce_of_ok (env : Env) (jobName : String) (reduceTask : Int) (outFile : String)
    (nMap : Int) (reduceF : String → List String → String)
    (hfiles : ∀ m : Nat, (m : Int) < nMap → intermediateFile env jobName reduceTask m ≠ none)
    (hout : env.fs.creatable outFile = true) :
    doReduce env jobName reduceTask outFile nMap reduceF =
      writeLoop outFile reduceF
        (env.order.iter (groupValues (inputRecords env jobName reduceTask nMap)))
        ⟨env.fs.create outFile,
          (List.range nMap.toNat).map (fun m : Nat => env.reduceName jobName (m : Int) reduceTask),
          [], [], false⟩ := by
  have hall : (List.range nMap.toNat).all
      (fun m => (intermediateFile env jobName reduceTask m).isSome) = true := by
    simp only [List.all_eq_true, List.mem_range]
    intro m hm
    exact Option.isSome_iff_ne_none.mpr (hfiles m (by omega))
  have h1 := readLoop_fst env jobName reduceTask (List.range nMap.toNat) [] []
  rw [if_pos hall] at h1
  have h2 := readLoop_snd env jobName reduceTask (List.range nMap.toNat) [] [] (by simp [h1])
  unfold doReduce
  generalize readLoop env jobName reduceTask (List.range nMap.toNat) [] [] = res at h1 h2
  obtain ⟨r1, r2⟩ := res
  simp only at h1 h2
  subst h1 h2
  simp [hout, inputRecords]

/-- The run of `doReduce` aborts exactly when an intermediate file fails or
`outFile` cannot be created. -/
theorem doReduce_panicked_iff (env : Env) (jobName : String) (reduceTask : Int)
    (outFile : String) (nMap : Int) (reduceF : String → List String → String) :
    (doReduce env jobName reduceTask outFile nMap reduceF).panicked = true ↔
      (∃ m : Nat, (m : Int) < nMap ∧ intermediateFile env jobName reduceTask m = none) ∨
        env.fs.creatable outFile = false := by
  by_cases hfiles :
      ∀ m : Nat, (m : Int) < nMap → intermediateFile env jobName reduceTask m ≠ none
  · cases hout : env.fs.creatable outFile with
    | true =>
      rw [doReduce_of_ok env jobName reduceTask outFile nMap reduceF hfiles hout,
        writeLoop_panicked]
      simp only [Bool.false_eq_true, false_iff, not_or, not_exists, not_and]
      exact ⟨hfiles, by simp⟩
    | false =>
      have h1 := readLoop_fst env jobName reduceTask (List.range nMap.toNat) [] []
      unfold doReduce
      generalize readLoop env jobName reduceTask (List.range nMap.toNat) [] [] = res at h1
      obtain ⟨r1, r2⟩ := res
      cases r1 <;> simp [hout]
  · have hex : ∃ m : Nat, (m : Int) < nMap ∧ intermediateFile env jobName reduceTask m = none := by
      push_neg at hfiles
      exact hfiles
    have hall : ¬ (List.range nMap.toNat).all
        (fun m => (intermediateFile env jobName reduceTask m).isSome) = true := by
      simp only [List.all_eq_true, List.mem_range, not_forall]
      obtain ⟨m, hm, hf⟩ := hex
      exact ⟨m, by omega, by simp [hf]⟩
    have h1 := readLoop_fst env jobName reduceTask (List.range nMap.toNat) [] []
    rw [if_neg hall] at h1
    unfold doReduce
    generalize readLoop env jobName reduceTask (List.range nMap.toNat) [] [] = res at h1
    obtain ⟨r1, r2⟩ := res
    simp only at h1
    subst h1
    simp [hex]

/-- A run that completed had all its intermediate files decoded and its output
file created. -/
theorem ok_of_completed (env : Env) (jobName : String) (reduceTask : Int) (outFile : String)
    (nMap : Int) (reduceF : String → List String → String)
    (hdone : (doReduce env jobName reduceTask outFile nMap reduceF).panicked = false) :
    (∀ m : Nat, (m : Int) < nMap → intermediateFile env jobName reduceTask m ≠ none) ∧
      env.fs.creatable outFile = true := by
  have h := doReduce_panicked_iff env jobName reduceTask outFile nMap reduceF
  rw [hdone] at h
  simp only [Bool.false_eq_true, false_iff, not_or, not_exists, not_and,
    Bool.not_eq_false] at h
  exact h


theorem completed_calls (env : Env) (jobName : String) (reduceTask : Int) (outFile : String)
    (nMap : Int) (reduceF : String → List String → String)
    (hdone : (doReduce env jobName reduceTask outFile nMap reduceF).panicked = false) :
    (doReduce env jobName reduceTask outFile nMap reduceF).calls =
      env.order.iter (groupValues (inputRecords env jobName reduceTask nMap)) := by
  obtain ⟨hfiles, hout⟩ := ok_of_completed env jobName reduceTask outFile nMap reduceF hdone
  rw [doReduce_of_ok env jobName reduceTask outFile nMap reduceF hfiles hout, writeLoop_calls]
  simp

theorem completed_written (env : Env) (jobName : String) (reduceTask : Int) (outFile : String)
    (nMap : Int) (reduceF : String → List String → String)
    (hdone : (doReduce env jobName reduceTask outFile nMap reduceF).panicked = false) :
    (doReduce env jobName reduceTask outFile nMap reduceF).written =
      (doReduce env jobName reduceTask outFile nMap reduceF).calls.map
        (fun e => (⟨e.1, reduceF e.1 e.2⟩ : KeyValue)) := by
  obtain ⟨hfiles, hout⟩ := ok_of_completed env jobName reduceTask outFile nMap reduceF hdone
  rw [doReduce_of_ok env jobName reduceTask outFile nMap reduceF hfiles hout, writeLoop_calls,
    writeLoop_written]
  simp

theorem completed_reads (env : Env) (jobName : String) (reduceTask : Int) (outFile : String)
    (nMap : Int) (reduceF : String → List String → String)
    (hdone : (doReduce env jobName reduceTask outFile nMap reduceF).panicked = false) :
    (doReduce env jobName reduceTask outFile nMap reduceF).reads =
      (List.range nMap.toNat).map
        (fun m : Nat => env.reduceName jobName (m : Int) reduceTask) := by
  obtain ⟨hfiles, hout⟩ := ok_of_completed env jobName reduceTask outFile nMap reduceF hdone
  rw [doReduce_of_ok env jobName reduceTask outFile nMap reduceF hfiles hout, writeLoop_reads]

theorem completed_contents_out (env : Env) (jobName : String) (reduceTask : Int)
    (outFile : String) (nMap : Int) (reduceF : String → List String → String)
    (hdone : (doReduce env jobName reduceTask outFile nMap reduceF).panicked = false) :
    (doReduce env jobName reduceTask outFile nMap reduceF).fs.contents outFile =
      some (encodeStream (doReduce env jobName reduceTask outFile nMap reduceF).written) := by
  obtain ⟨hfiles, hout⟩ := ok_of_completed env jobName reduceTask outFile nMap reduceF hdone
  rw [doReduce_of_ok env jobName reduceTask outFile nMap reduceF hfiles hout,
    writeLoop_written, writeLoop_contents_out _ _ _ _ [] (by simp [FileSystem.create])]
  simp

theorem completed_contents_other (env : Env) (jobName : String) (reduceTask : Int)
    (outFile : String) (nMap : Int) (reduceF : String → List String → String)
    (hdone : (doReduce env jobName reduceTask outFile nMap reduceF).panicked = false)
    (p : String) (hp : p ≠ outFile) :
    (doReduce env jobName reduceTask outFile nMap reduceF).fs.contents p =
      env.fs.contents p := by
  obtain ⟨hfiles, hout⟩ := ok_of_completed env jobName reduceTask outFile nMap reduceF hdone
  rw [doReduce_of_ok env jobName reduceTask outFile nMap reduceF hfiles hout,
    writeLoop_contents_other _ _ _ _ hp]
  simp [FileSystem.create, hp]

theorem completed_creatable (env : Env) (jobName : String) (reduceTask : Int)
    (outFile : String) (nMap : Int) (reduceF : String → List String → String)
    (hdone : (doReduce env jobName reduceTask outFile nMap reduceF).panicked = false) :
    (doReduce env jobName reduceTask outFile nMap reduceF).fs.creatable =
      env.fs.creatable := by
  obtain ⟨hfiles, hout⟩ := ok_of_completed env jobName reduceTask outFile nMap reduceF hdone
  rw [doReduce_of_ok env jobName reduceTask outFile nMap reduceF hfiles hout,
    writeLoop_creatable]
  simp [FileSystem.create]

/-- The calls of `reduceF` in a completed run: one for each key of the input,
with the values of that key in the order of the input. -/
theorem completed_mem_calls (env : Env) (jobName : String) (reduceTask : Int)
    (outFile : String) (nMap : Int) (reduceF : String → List String → String)
    (hdone : (doReduce env jobName reduceTask outFile nMap reduceF).panicked = false)
    (k : String) (vs : List String) :
    (k, vs) ∈ (doReduce env jobName reduceTask outFile nMap reduceF).calls ↔
      k ∈ (inputRecords env jobName reduceTask nMap).map KeyValue.Key ∧
        vs = valuesOf k (inputRecords env jobName reduceTask nMap) := by
  rw [completed_calls env jobName reduceTask outFile nMap reduceF hdone,
    (env.order.perm _).mem_iff, groupValues_mem]

theorem completed_calls_keys (env : Env) (jobName : String) (reduceTask : Int)
    (outFile : String) (nMap : Int) (reduceF : String → List String → String)
    (hdone : (doReduce env jobName reduceTask outFile nMap reduceF).panicked = false) :
    ((doReduce env jobName reduceTask outFile nMap reduceF).calls.map Prod.fst).Perm
      ((inputRecords env jobName reduceTask nMap).map KeyValue.Key).dedup := by
  rw [completed_calls env jobName reduceTask outFile nMap reduceF hdone]
  refine ((env.order.perm _).map Prod.fst).trans ?_
  rw [List.perm_ext_iff_of_nodup (groupValues_keys_nodup _) (List.nodup_dedup _)]
  intro k
  rw [groupValues_keys_mem, List.mem_dedup]

theorem completed_written_keys (env : Env) (jobName : String) (reduceTask : Int)
    (outFile : String) (nMap : Int) (reduceF : String → List String → String)
    (hdone : (doReduce env jobName reduceTask outFile nMap reduceF).panicked = false) :
    (doReduce env jobName reduceTask outFile nMap reduceF).written.map KeyValue.Key =
      (doReduce env jobName reduceTask outFile nMap reduceF).calls.map Prod.fst := by
  rw [completed_written env jobName reduceTask outFile nMap reduceF hdone]
  simp [Function.comp_def]

/-- A run that panicked called `reduceF` never, wrote no record and left the
file system as it was. -/
theorem panicked_run (env : Env) (jobName : String) (reduceTask : Int) (outFile : String)
    (nMap : Int) (reduceF : String → List String → String)
    (hp : (doReduce env jobName reduceTask outFile nMap reduceF).panicked = true) :
    (doReduce env jobName reduceTask outFile nMap reduceF).fs = env.fs ∧
      (doReduce env jobName reduceTask outFile nMap reduceF).written = [] ∧
      (doReduce env jobName reduceTask outFile nMap reduceF).calls = [] := by
  revert hp
  unfold doReduce
  generalize readLoop env jobName reduceTask (List.range nMap.toNat) [] [] = res
  obtain ⟨r1, r2⟩ := res
  cases r1 with
  | none => simp
  | some all =>
    cases hout : env.fs.creatable outFile with
    | false => simp
    | true => simp [writeLoop_panicked]

theorem flatMap_congr_mem {α β : Type} (f g : α → List β) :
    ∀ l : List α, (∀ a ∈ l, f a = g a) → l.flatMap f = l.flatMap g := by
  intro l
  induction l with
  | nil => intro _; rfl
  | cons a l ih =>
    intro h
    simp only [List.flatMap_cons]
    rw [h a (by simp), ih (fun b hb => h b (by simp [hb]))]

theorem inputRecords_congr (reduceName : String → Int → Int → String) (fs1 fs2 : FileSystem)
    (order1 order2 : MapOrder) (jobName : String) (reduceTask : Int) (nMap : Int)
    (hsame : ∀ m : Nat, (m : Int) < nMap →
      fs1.contents (reduceName jobName m reduceTask) =
        fs2.contents (reduceName jobName m reduceTask)) :
    inputRecords ⟨reduceName, fs1, order1⟩ jobName reduceTask nMap =
      inputRecords ⟨reduceName, fs2, order2⟩ jobName reduceTask nMap := by
  unfold inputRecords
  apply flatMap_congr_mem
  intro m hm
  have hlt : (m : Int) < nMap := by
    have := List.mem_range.mp hm
    omega
  simp [intermediateFile, hsame m hlt]

/-! ## Lemmas on the order of keys, on sorting and on slices -/

theorem stringLess_iff (a b : String) : stringLess a b = true ↔ a < b := by
  simp [stringLess, String.lt_iff_toList_lt]

theorem stringLess_eq_false_iff (a b : String) : stringLess a b = false ↔ b ≤ a := by
  rw [← not_lt, ← stringLess_iff]
  simp

/-- In a list of entries with distinct keys, the entries with the key of an
entry of the list are that entry alone. -/
theorem filter_key_of_nodup (l : List (String × List String))
    (hn : (l.map Prod.fst).Nodup) (k : String) (vs : List String) (hmem : (k, vs) ∈ l) :
    l.filter (fun entry => entry.1 = k) = [(k, vs)] := by
  induction l with
  | nil => cases hmem
  | cons e rest ih =>
    obtain ⟨k0, v0⟩ := e
    simp only [List.map_cons, List.nodup_cons] at hn
    by_cases h0 : k0 = k
    · subst h0
      have hnot : ∀ entry ∈ rest, ¬ entry.1 = k0 := by
        intro entry hentry he
        exact hn.1 (he ▸ List.mem_map_of_mem Prod.fst hentry)
      have hvs : vs = v0 := by
        rcases List.mem_cons.mp hmem with h | h
        · exact (Prod.mk.inj h).2
        · exact absurd rfl (hnot _ h)
      have hrest : rest.filter (fun entry => entry.1 = k0) = [] := by
        rw [List.filter_eq_nil_iff]
        intro entry hentry
        simpa using hnot entry hentry
      simp [List.filter_cons, hrest, hvs]
    · have hmem1 : (k, vs) ∈ rest := by
        rcases List.mem_cons.mp hmem with h | h
        · exact absurd (Prod.mk.inj h).1.symm h0
        · exact h
      simp [List.filter_cons, h0, ih hn.2 hmem1]

/-- The written records with a key of the input: the one record of the call
for that key. -/
theorem completed_written_of_key (env : Env) (jobName : String) (reduceTask : Int)
    (outFile : String) (nMap : Int) (reduceF : String → List String → String)
    (hdone : (doReduce env jobName reduceTask outFile nMap reduceF).panicked = false)
    (k : String) (hk : k ∈ (inputRecords env jobName reduceTask nMap).map KeyValue.Key) :
    (doReduce env jobName reduceTask outFile nMap reduceF).written.filter
        (fun kv => kv.Key = k) =
      [⟨k, reduceF k (valuesOf k (inputRecords env jobName reduceTask nMap))⟩] := by
  have hcall := (completed_mem_calls env jobName reduceTask outFile nMap reduceF hdone k
    (valuesOf k (inputRecords env jobName reduceTask nMap))).mpr ⟨hk, rfl⟩
  have hnodup : ((doReduce env jobName reduceTask outFile nMap reduceF).calls.map
      Prod.fst).Nodup :=
    (completed_calls_keys env jobName reduceTask outFile nMap reduceF hdone).nodup_iff.mpr
      (List.nodup_dedup _)
  have hfilter := filter_key_of_nodup _ hnodup k _ hcall
  rw [completed_written env jobName reduceTask outFile nMap reduceF hdone, List.filter_map]
  have hcomp : ((fun kv : KeyValue => decide (kv.Key = k)) ∘
      fun e : String × List String => (⟨e.1, reduceF e.1 e.2⟩ : KeyValue)) =
      fun entry => decide (entry.1 = k) := rfl
  rw [hcomp, hfilter]
  rfl

/-- The value a completed run writes for a record. -/
theorem completed_written_value (env : Env) (jobName : String) (reduceTask : Int)
    (outFile : String) (nMap : Int) (reduceF : String → List String → String)
    (hdone : (doReduce env jobName reduceTask outFile nMap reduceF).panicked = false)
    (kv : KeyValue)
    (hkv : kv ∈ (doReduce env jobName reduceTask outFile nMap reduceF).written) :
    kv.Value = reduceF kv.Key (valuesOf kv.Key (inputRecords env jobName reduceTask nMap)) := by
  rw [completed_written env jobName reduceTask outFile nMap reduceF hdone,
    List.mem_map] at hkv
  obtain ⟨⟨k, vs⟩, hmem, rfl⟩ := hkv
  obtain ⟨_, hvs⟩ :=
    (completed_mem_calls env jobName reduceTask outFile nMap reduceF hdone k vs).mp hmem
  simp only [hvs]

/-- The run on the two sample files under any iteration order of the map. -/
theorem sample_run (order : MapOrder) (reduceF : String → List String → String) :
    (doReduce ⟨sampleName, sampleFS, order⟩ "job" 0 "out" 2 reduceF).panicked = false ∧
      ((doReduce ⟨sampleName, sampleFS, order⟩ "job" 0 "out" 2 reduceF).written.Perm
        [⟨"a", reduceF "a" ["1", "3"]⟩, ⟨"b", reduceF "b" ["2"]⟩]) := by
  have hfiles : ∀ m : Nat, (m : Int) < 2 →
      intermediateFile ⟨sampleName, sampleFS, order⟩ "job" 0 m ≠ none := by
    intro m hm
    show intermediateFile sampleEnv "job" 0 m ≠ none
    have hcases : m = 0 ∨ m = 1 := by omega
    rcases hcases with rfl | rfl <;> decide
  have hrun := doReduce_of_ok ⟨sampleName, sampleFS, order⟩ "job" 0 "out" 2 reduceF hfiles rfl
  have hinput : inputRecords ⟨sampleName, sampleFS, order⟩ "job" 0 2 =
      [⟨"a", "1"⟩, ⟨"b", "2"⟩, ⟨"a", "3"⟩] := by
    show inputRecords sampleEnv "job" 0 2 = _
    decide
  have hgroups : groupValues [⟨"a", "1"⟩, ⟨"b", "2"⟩, ⟨"a", "3"⟩] =
      [("a", ["1", "3"]), ("b", ["2"])] := by decide
  rw [hrun, writeLoop_panicked, writeLoop_written, hinput, hgroups]
  refine ⟨rfl, ?_⟩
  simpa using (order.perm [("a", ["1", "3"]), ("b", ["2"])]).map
    (fun e => (⟨e.1, reduceF e.1 e.2⟩ : KeyValue))

/-- The run on the three files that hold the record `("k", "v")` five times in
all, under any iteration order of the map. -/
theorem repeat_run (order : MapOrder) (reduceF : String → List String → String) :
    (doReduce ⟨sampleName, repeatFS, order⟩ "job" 0 "out" 3 reduceF).panicked = false ∧
      ((doReduce ⟨sampleName, repeatFS, order⟩ "job" 0 "out" 3 reduceF).written.Perm
        [⟨"k", reduceF "k" ["v", "v", "v", "v", "v"]⟩]) := by
  have hfiles : ∀ m : Nat, (m : Int) < 3 →
      intermediateFile ⟨sampleName, repeatFS, order⟩ "job" 0 m ≠ none := by
    intro m hm
    show intermediateFile ⟨sampleName, repeatFS, insertionOrder⟩ "job" 0 m ≠ none
    have hcases : m = 0 ∨ m = 1 ∨ m = 2 := by omega
    rcases hcases with rfl | rfl | rfl <;> decide
  have hrun := doReduce_of_ok ⟨sampleName, repeatFS, order⟩ "job" 0 "out" 3 reduceF hfiles rfl
  have hinput : inputRecords ⟨sampleName, repeatFS, order⟩ "job" 0 3 =
      [⟨"k", "v"⟩, ⟨"k", "v"⟩, ⟨"k", "v"⟩, ⟨"k", "v"⟩, ⟨"k", "v"⟩] := by
    show inputRecords ⟨sampleName, repeatFS, insertionOrder⟩ "job" 0 3 = _
    decide
  have hgroups : groupValues [⟨"k", "v"⟩, ⟨"k", "v"⟩, ⟨"k", "v"⟩, ⟨"k", "v"⟩, ⟨"k", "v"⟩] =
      [("k", ["v", "v", "v", "v", "v"])] := by decide
  rw [hrun, writeLoop_panicked, writeLoop_written, hinput, hgroups]
  refine ⟨rfl, ?_⟩
  simpa using (order.perm [("k", ["v", "v", "v", "v", "v"])]).map
    (fun e => (⟨e.1, reduceF e.1 e.2⟩ : KeyValue))

theorem valuesOf_ne_nil (k : String) (records : List KeyValue)
    (hk : k ∈ records.map KeyValue.Key) : valuesOf k records ≠ [] := by
  obtain ⟨kv, hkv, rfl⟩ := List.mem_map.mp hk
  intro hnil
  have hmem : kv.Value ∈ valuesOf kv.Key records :=
    List.mem_map.mpr ⟨kv, List.mem_filter.mpr ⟨hkv, by simp⟩, rfl⟩
  rw [hnil] at hmem
  cases hmem

theorem lengths_store (m : ValuesMap) (k v : String) :
    ((m.store k (m.lookup k ++ [v])).map (fun entry => entry.2.length)).sum =
      (m.map (fun entry => entry.2.length)).sum + 1 := by
  induction m with
  | nil => simp [ValuesMap.store, ValuesMap.lookup]
  | cons e rest ih =>
    obtain ⟨k0, old⟩ := e
    by_cases h0 : k0 = k
    · simp [ValuesMap.store, ValuesMap.lookup, h0]; omega
    · simp only [ValuesMap.store, ValuesMap.lookup, h0, if_false, List.map_cons, List.sum_cons,
        ih]
      omega

theorem lengths_groupFrom (records : List KeyValue) :
    ∀ m : ValuesMap,
      ((groupFrom m records).map (fun entry => entry.2.length)).sum =
        (m.map (fun entry => entry.2.length)).sum + records.length := by
  induction records with
  | nil => intro m; simp [groupFrom]
  | cons kv rest ih =>
    intro m
    have h := ih (m.store kv.Key (m.lookup kv.Key ++ [kv.Value]))
    simp only [groupFrom, List.foldl_cons] at h ⊢
    rw [h, lengths_store]
    simp only [List.length_cons]
    omega

theorem keyOrdered_iff (a b : KeyValue) : keyOrdered a b ↔ a.Key ≤ b.Key := by
  simp [keyOrdered, stringLess_eq_false_iff]

theorem scanRuns_head (kv : KeyValue) (rest : List KeyValue) :
    ∃ vs groups, scanRuns (kv :: rest) = (kv.Key, vs) :: groups := by
  unfold scanRuns
  cases scanRuns rest with
  | nil => exact ⟨_, _, rfl⟩
  | cons g groups =>
    obtain ⟨k, vs⟩ := g
    by_cases h : k = kv.Key
    · subst h
      exact ⟨kv.Value :: vs, groups, by simp⟩
    · exact ⟨[kv.Value], (k, vs) :: groups, by simp [h]⟩

/-- The groups of a list ordered by key: distinct keys, the keys of the list,
each with the values of its records in their order. -/
theorem scanRuns_sorted (s : List KeyValue) (hs : s.Pairwise keyOrdered) :
    ((scanRuns s).map Prod.fst).Nodup ∧
      ∀ (k : String) (vs : List String),
        (k, vs) ∈ scanRuns s ↔ k ∈ s.map KeyValue.Key ∧ vs = valuesOf k s := by
  induction s with
  | nil => simp [scanRuns]
  | cons kv rest ih =>
    obtain ⟨hhead, hrest⟩ := List.pairwise_cons.mp hs
    obtain ⟨hnodup, hmem⟩ := ih hrest
    cases rest with
    | nil =>
      simp only [scanRuns, List.map_cons, List.map_nil, List.nodup_cons, List.not_mem_nil,
        not_false_eq_true, List.nodup_nil, and_self, List.mem_singleton, Prod.mk.injEq,
        true_and]
      intro k vs
      constructor
      · rintro ⟨rfl, rfl⟩
        simp [valuesOf]
      · rintro ⟨rfl, rfl⟩
        simp [valuesOf]
    | cons r0 rest1 =>
      obtain ⟨vs0, groups, hscan⟩ := scanRuns_head r0 rest1
      have hvs0 : vs0 = valuesOf r0.Key (r0 :: rest1) :=
        ((hmem r0.Key vs0).mp (by rw [hscan]; simp)).2
      by_cases hk : r0.Key = kv.Key
      · have hshape : scanRuns (kv :: r0 :: rest1) = (r0.Key, kv.Value :: vs0) :: groups := by
          rw [scanRuns, hscan]
          simp [hk]
        rw [hscan] at hnodup hmem
        simp only [List.map_cons, List.nodup_cons] at hnodup
        rw [hshape]
        refine ⟨by simpa using hnodup, ?_⟩
        intro k vs
        by_cases hk0 : k = r0.Key
        · subst hk0
          have hnot : ∀ ws, (r0.Key, ws) ∉ groups := fun ws hws =>
            hnodup.1 (List.mem_map_of_mem Prod.fst hws)
          simp only [List.mem_cons, Prod.mk.injEq, true_and, hnot, or_false, List.map_cons,
            true_or, or_true]
          rw [hvs0]
          simp [valuesOf, hk.symm]
        · have hne : ¬ kv.Key = k := fun e => hk0 (e ▸ hk.symm ▸ rfl)
          have h1 := hmem k vs
          simp only [List.mem_cons, Prod.mk.injEq, hk0, false_and, false_or, List.map_cons]
            at h1 ⊢
          rw [h1]
          have hk0b : ¬ r0.Key = k := fun e => hk0 e.symm
          simp [valuesOf, hne, hk0b, Ne.symm hne]
      · have hshape : scanRuns (kv :: r0 :: rest1) =
            (kv.Key, [kv.Value]) :: (r0.Key, vs0) :: groups := by
          rw [scanRuns, hscan]
          simp [hk]
        have hlt : ∀ b ∈ r0 :: rest1, b.Key ≠ kv.Key := by
          intro b hb heq
          have h1 : kv.Key ≤ r0.Key := (keyOrdered_iff kv r0).mp (hhead r0 (by simp))
          have h2 : r0.Key ≤ b.Key := by
            rcases List.mem_cons.mp hb with rfl | hb1
            · exact le_refl _
            · exact (keyOrdered_iff r0 b).mp ((List.pairwise_cons.mp hrest).1 b hb1)
          rw [heq] at h2
          exact hk (le_antisymm h2 h1)
        have hfresh : kv.Key ∉ (scanRuns (r0 :: rest1)).map Prod.fst := by
          intro hin
          obtain ⟨⟨k1, v1⟩, hin1, hin2⟩ := List.mem_map.mp hin
          simp only at hin2
          obtain ⟨b, hb, hbk⟩ := List.mem_map.mp ((hmem k1 v1).mp hin1).1
          exact hlt b hb (hbk.trans hin2)
        rw [hshape, ← hscan]
        refine ⟨List.nodup_cons.mpr ⟨hfresh, hnodup⟩, ?_⟩
        intro k vs
        by_cases hkk : k = kv.Key
        · subst hkk
          have hnot : ∀ ws, (kv.Key, ws) ∉ scanRuns (r0 :: rest1) := fun ws hws =>
            hfresh (List.mem_map_of_mem Prod.fst hws)
          have hnone : (r0 :: rest1).filter (fun r => r.Key = kv.Key) = [] := by
            rw [List.filter_eq_nil_iff]
            intro b hb
            simpa using hlt b hb
          simp only [List.mem_cons, Prod.mk.injEq, true_and, hnot, or_false, List.map_cons,
            true_or]
          simp [valuesOf, List.filter_cons, hnone]
        · have hne : ¬ kv.Key = k := fun e => hkk e.symm
          have h1 := hmem k vs
          simp only [List.mem_cons, Prod.mk.injEq, hkk, false_and, false_or, List.map_cons]
            at h1 ⊢
          rw [h1]
          simp [valuesOf, List.filter_cons, hne, Ne.symm hne]

theorem keyOrdered_total (a b : KeyValue) : keyOrdered a b ∨ keyOrdered b a := by
  rw [keyOrdered_iff, keyOrdered_iff]
  exact le_total _ _

theorem keyOrdered_trans (a b c : KeyValue) (h1 : keyOrdered a b) (h2 : keyOrdered b c) :
    keyOrdered a c := by
  rw [keyOrdered_iff] at h1 h2 ⊢
  exact le_trans h1 h2

theorem stableSortByKey_sorted (records : List KeyValue) :
    (stableSortByKey records).Pairwise keyOrdered :=
  @List.sorted_insertionSort _ keyOrdered _ ⟨keyOrdered_total⟩ ⟨keyOrdered_trans⟩ records

/-- Insertion puts a record before the records with its key. -/
theorem filter_orderedInsert (k : String) (a : KeyValue) (l : List KeyValue) :
    (l.orderedInsert keyOrdered a).filter (fun r => r.Key = k) =
      (a :: l).filter (fun r => r.Key = k) := by
  induction l with
  | nil => rfl
  | cons b rest ih =>
    by_cases hab : keyOrdered a b
    · simp [List.orderedInsert, hab]
    · have hne : a.Key ≠ b.Key := by
        intro heq
        exact hab ((keyOrdered_iff a b).mpr (le_of_eq heq))
      simp only [List.orderedInsert, hab, if_false, List.filter_cons, ih]
      by_cases hbk : b.Key = k
      · have hak : ¬ a.Key = k := fun e => hne (e.trans hbk.symm)
        simp [hbk, hak]
      · simp [hbk]

/-- The stable sort keeps the order of the records of each key. -/
theorem valuesOf_stableSortByKey (k : String) (records : List KeyValue) :
    valuesOf k (stableSortByKey records) = valuesOf k records := by
  induction records with
  | nil => rfl
  | cons a rest ih =>
    have hstep : stableSortByKey (a :: rest) =
        (stableSortByKey rest).orderedInsert keyOrdered a := rfl
    unfold valuesOf at ih ⊢
    rw [hstep, filter_orderedInsert]
    simp only [List.filter_cons]
    split
    · simp [ih]
    · exact ih

/-- An index in range selects an element. -/
theorem index_of_inRange (kvs : KeyValuePairs) (i : Int) (h0 : 0 ≤ i)
    (hlt : i < KeyValuePairs.Len kvs) :
    ∃ h : i.toNat < kvs.length, KeyValuePairs.index kvs i = some (kvs.get ⟨i.toNat, h⟩) := by
  have h : i.toNat < kvs.length := by
    simp only [KeyValuePairs.Len] at hlt
    omega
  refine ⟨h, ?_⟩
  simp [KeyValuePairs.index, h0, h]

theorem less_of_index (kvs : KeyValuePairs) (i j : Int) (a b : KeyValue)
    (hi : KeyValuePairs.index kvs i = some a) (hj : KeyValuePairs.index kvs j = some b) :
    KeyValuePairs.Less kvs i j = some (stringLess a.Key b.Key) := by
  simp [KeyValuePairs.Less, hi, hj]

theorem index_map_key (kvs other : KeyValuePairs)
    (hkeys : other.map KeyValue.Key = kvs.map KeyValue.Key) (i : Int) :
    (KeyValuePairs.index other i).map KeyValue.Key =
      (KeyValuePairs.index kvs i).map KeyValue.Key := by
  unfold KeyValuePairs.index
  split
  · have h1 : (other.map KeyValue.Key)[i.toNat]? = (kvs.map KeyValue.Key)[i.toNat]? := by
      rw [hkeys]
    simpa using h1
  · rfl

theorem index_eq_getElem (kvs : KeyValuePairs) (i : Int) (h0 : 0 ≤ i) :
    KeyValuePairs.index kvs i = kvs[i.toNat]? := by
  simp [KeyValuePairs.index, h0]

theorem index_neg (kvs : KeyValuePairs) (i : Int) (h0 : ¬ 0 ≤ i) :
    KeyValuePairs.index kvs i = none := by
  simp [KeyValuePairs.index, h0]

/-- Writing two elements that are in the list at two places leaves the same
elements with the same multiplicities. -/
theorem set_set_perm (l : List KeyValue) (m n : Nat) (hm : m < l.length) (hn : n < l.length) :
    ((l.set m (l.get ⟨n, hn⟩)).set n (l.get ⟨m, hm⟩)).Perm l := by
  rw [List.perm_iff_count]
  intro c
  have hn1 : n < (l.set m (l.get ⟨n, hn⟩)).length := by simpa using hn
  have h2 := List.count_set (l.get ⟨m, hm⟩) c (l.set m (l.get ⟨n, hn⟩)) n hn1
  have h1 := List.count_set (l.get ⟨n, hn⟩) c l m hm
  have hmid : (l.set m (l.get ⟨n, hn⟩))[n] = l.get ⟨n, hn⟩ := by
    rw [List.getElem_set]
    split
    · rfl
    · rfl
  rw [hmid] at h2
  have hpos1 : (l.get ⟨m, hm⟩ == c) = true → 0 < List.count c l := by
    intro h
    have : l.get ⟨m, hm⟩ = c := by simpa using h
    rw [← this]
    exact List.count_pos_iff.mpr (List.get_mem l m hm)
  simp only [List.get_eq_getElem] at h1 h2 hpos1 ⊢
  rw [h2, h1]
  by_cases ha : (l[m] == c) = true <;> by_cases hb : (l[n] == c) = true
  · simp only [ha, hb, if_true]
    have := hpos1 ha
    omega
  · simp only [ha, hb, if_true]
    have := hpos1 ha
    simp
    omega
  · simp only [ha, hb, if_true]
    simp
  · simp [ha, hb]

theorem set_set_getElem (l : List KeyValue) (m n : Nat) (hm : m < l.length)
    (hn : n < l.length) (p : Nat) :
    ((l.set m (l.get ⟨n, hn⟩)).set n (l.get ⟨m, hm⟩))[p]? =
      if p = n then l[m]? else if p = m then l[n]? else l[p]? := by
  simp only [List.getElem?_set, List.length_set, List.get_eq_getElem]
  by_cases h1 : n = p
  · subst h1
    simp [hn, List.getElem?_eq_getElem hm]
  · have h1b : ¬ p = n := fun e => h1 e.symm
    by_cases h2 : m = p
    · subst h2
      simp [h1, h1b, hm, List.getElem?_eq_getElem hn]
    · have h2b : ¬ p = m := fun e => h2 e.symm
      simp [h1, h1b, h2, h2b]

/-! ## The claims -/

/-- C1 (completeness).  When `doReduce` completes, a key is the key of a record
written to `outFile` exactly when it is the key of a record of one of the
intermediate files `reduceName(jobName, m, reduceTask)`, `0 ≤ m < nMap`. -/
theorem doReduce_keys_complete (env : Env) (jobName : String) (reduceTask : Int)
    (outFile : String) (nMap : Int) (reduceF : String → List String → String)
    (hdone : (doReduce env jobName reduceTask outFile nMap reduceF).panicked = false)
    (k : String) :
    (∃ kv ∈ (doReduce env jobName reduceTask outFile nMap reduceF).written, kv.Key = k) ↔
      ∃ m : Nat, (m : Int) < nMap ∧ ∃ kvs,
        intermediateFile env jobName reduceTask m = some kvs ∧ ∃ kv ∈ kvs, kv.Key = k := by
  rw [← mem_inputKeys, ← List.mem_dedup,
    ← (completed_calls_keys env jobName reduceTask outFile nMap reduceF hdone).mem_iff,
    ← completed_written_keys env jobName reduceTask outFile nMap reduceF hdone]
  simp

/-- The statement of C1 on the sample input, for the key `b`. -/
theorem doReduce_keys_complete_witness :
    (doReduce sampleEnv "job" 0 "out" 2 sampleReduce).panicked = false ∧
      ((∃ kv ∈ (doReduce sampleEnv "job" 0 "out" 2 sampleReduce).written, kv.Key = "b") ↔
        ∃ m : Nat, (m : Int) < 2 ∧ ∃ kvs,
          intermediateFile sampleEnv "job" 0 m = some kvs ∧ ∃ kv ∈ kvs, kv.Key = "b") :=
  ⟨by decide, doReduce_keys_complete sampleEnv "job" 0 "out" 2 sampleReduce (by decide) "b"⟩

/-- C2 (exactly once per key).  In a completed run `reduceF` is called once for
each key of the input and for no other key, every call yields one written
record, no two written records have the same key, and the number of written
records is the number of distinct keys of the input. -/
theorem doReduce_once_per_key (env : Env) (jobName : String) (reduceTask : Int)
    (outFile : String) (nMap : Int) (reduceF : String → List String → String)
    (hdone : (doReduce env jobName reduceTask outFile nMap reduceF).panicked = false) :
    (∀ k : String,
        ((doReduce env jobName reduceTask outFile nMap reduceF).calls.map Prod.fst).count k =
          if k ∈ (inputRecords env jobName reduceTask nMap).map KeyValue.Key then 1 else 0) ∧
      (doReduce env jobName reduceTask outFile nMap reduceF).written.map KeyValue.Key =
        (doReduce env jobName reduceTask outFile nMap reduceF).calls.map Prod.fst ∧
      ((doReduce env jobName reduceTask outFile nMap reduceF).written.map KeyValue.Key).Nodup ∧
      (doReduce env jobName reduceTask outFile nMap reduceF).written.length =
        ((inputRecords env jobName reduceTask nMap).map KeyValue.Key).dedup.length := by
  have hperm := completed_calls_keys env jobName reduceTask outFile nMap reduceF hdone
  have hkeys := completed_written_keys env jobName reduceTask outFile nMap reduceF hdone
  have hnodup : ((doReduce env jobName reduceTask outFile nMap reduceF).calls.map
      Prod.fst).Nodup := hperm.nodup_iff.mpr (List.nodup_dedup _)
  refine ⟨fun k => ?_, hkeys, hkeys ▸ hnodup, ?_⟩
  · rw [List.count_eq_of_nodup hnodup]
    simp only [hperm.mem_iff, List.mem_dedup]
  · have h := hperm.length_eq
    rw [← hkeys] at h
    simpa using h

/-- The statement of C2 on the sample input. -/
theorem doReduce_once_per_key_witness :
    (doReduce sampleEnv "job" 0 "out" 2 sampleReduce).panicked = false ∧
      ((∀ k : String,
        ((doReduce sampleEnv "job" 0 "out" 2 sampleReduce).calls.map Prod.fst).count k =
          if k ∈ (inputRecords sampleEnv "job" 0 2).map KeyValue.Key then 1 else 0) ∧
      (doReduce sampleEnv "job" 0 "out" 2 sampleReduce).written.map KeyValue.Key =
        (doReduce sampleEnv "job" 0 "out" 2 sampleReduce).calls.map Prod.fst ∧
      ((doReduce sampleEnv "job" 0 "out" 2 sampleReduce).written.map KeyValue.Key).Nodup ∧
      (doReduce sampleEnv "job" 0 "out" 2 sampleReduce).written.length =
        ((inputRecords sampleEnv "job" 0 2).map KeyValue.Key).dedup.length) :=
  ⟨by decide, doReduce_once_per_key sampleEnv "job" 0 "out" 2 sampleReduce (by decide)⟩

/-- C3 (value preservation).  In a completed run, for every key `k` of the input
there is exactly one call of `reduceF` for `k`, and the values passed in it are
a permutation of the values of the input records with key `k`, with their
multiplicities. -/
theorem doReduce_values_preserved (env : Env) (jobName : String) (reduceTask : Int)
    (outFile : String) (nMap : Int) (reduceF : String → List String → String)
    (hdone : (doReduce env jobName reduceTask outFile nMap reduceF).panicked = false)
    (k : String) (hk : k ∈ (inputRecords env jobName reduceTask nMap).map KeyValue.Key) :
    ∃ vs : List String,
      (k, vs) ∈ (doReduce env jobName reduceTask outFile nMap reduceF).calls ∧
      (∀ ws, (k, ws) ∈ (doReduce env jobName reduceTask outFile nMap reduceF).calls → ws = vs) ∧
      vs.Perm (valuesOf k (inputRecords env jobName reduceTask nMap)) := by
  refine ⟨valuesOf k (inputRecords env jobName reduceTask nMap), ?_, ?_, List.Perm.refl _⟩
  · exact (completed_mem_calls env jobName reduceTask outFile nMap reduceF hdone k _).mpr
      ⟨hk, rfl⟩
  · intro ws hws
    exact ((completed_mem_calls env jobName reduceTask outFile nMap reduceF hdone k ws).mp hws).2

/-- The statement of C3 on the sample input, for the key `a`. -/
theorem doReduce_values_preserved_witness :
    (doReduce sampleEnv "job" 0 "out" 2 sampleReduce).panicked = false ∧
      "a" ∈ (inputRecords sampleEnv "job" 0 2).map KeyValue.Key ∧
      ∃ vs : List String,
        ("a", vs) ∈ (doReduce sampleEnv "job" 0 "out" 2 sampleReduce).calls ∧
        (∀ ws, ("a", ws) ∈ (doReduce sampleEnv "job" 0 "out" 2 sampleReduce).calls → ws = vs) ∧
        vs.Perm (valuesOf "a" (inputRecords sampleEnv "job" 0 2)) :=
  ⟨by decide, by decide,
    doReduce_values_preserved sampleEnv "job" 0 "out" 2 sampleReduce (by decide) "a"
      (by decide)⟩

/-- C4 (the output value is the reduce result).  In a completed run `outFile`
holds the encodings of the written records, the record written for a call of
`reduceF` on `(k, vs)` is `(k, reduceF(k, vs))`, and every written record
`(k, v)` has a key `k` of the input and the value `v = reduceF(k, vs)`, where
`vs` are the values of all input records with key `k`. -/
theorem doReduce_output_value (env : Env) (jobName : String) (reduceTask : Int)
    (outFile : String) (nMap : Int) (reduceF : String → List String → String)
    (hdone : (doReduce env jobName reduceTask outFile nMap reduceF).panicked = false) :
    (doReduce env jobName reduceTask outFile nMap reduceF).fs.contents outFile =
        some (encodeStream (doReduce env jobName reduceTask outFile nMap reduceF).written) ∧
      (doReduce env jobName reduceTask outFile nMap reduceF).written =
        (doReduce env jobName reduceTask outFile nMap reduceF).calls.map
          (fun call => (⟨call.1, reduceF call.1 call.2⟩ : KeyValue)) ∧
      ∀ kv ∈ (doReduce env jobName reduceTask outFile nMap reduceF).written,
        kv.Key ∈ (inputRecords env jobName reduceTask nMap).map KeyValue.Key ∧
          kv.Value =
            reduceF kv.Key (valuesOf kv.Key (inputRecords env jobName reduceTask nMap)) := by
  refine ⟨completed_contents_out env jobName reduceTask outFile nMap reduceF hdone,
    completed_written env jobName reduceTask outFile nMap reduceF hdone, ?_⟩
  intro kv hkv
  rw [completed_written env jobName reduceTask outFile nMap reduceF hdone,
    List.mem_map] at hkv
  obtain ⟨⟨k, vs⟩, hmem, rfl⟩ := hkv
  obtain ⟨hk, hvs⟩ :=
    (completed_mem_calls env jobName reduceTask outFile nMap reduceF hdone k vs).mp hmem
  exact ⟨hk, by rw [hvs]⟩

/-- The statement of C4 on the sample input. -/
theorem doReduce_output_value_witness :
    (doReduce sampleEnv "job" 0 "out" 2 sampleReduce).panicked = false ∧
      ((doReduce sampleEnv "job" 0 "out" 2 sampleReduce).fs.contents "out" =
        some (encodeStream (doReduce sampleEnv "job" 0 "out" 2 sampleReduce).written) ∧
      (doReduce sampleEnv "job" 0 "out" 2 sampleReduce).written =
        (doReduce sampleEnv "job" 0 "out" 2 sampleReduce).calls.map
          (fun call => (⟨call.1, sampleReduce call.1 call.2⟩ : KeyValue)) ∧
      ∀ kv ∈ (doReduce sampleEnv "job" 0 "out" 2 sampleReduce).written,
        kv.Key ∈ (inputRecords sampleEnv "job" 0 2).map KeyValue.Key ∧
          kv.Value = sampleReduce kv.Key (valuesOf kv.Key (inputRecords sampleEnv "job" 0 2))) :=
  ⟨by decide, doReduce_output_value sampleEnv "job" 0 "out" 2 sampleReduce (by decide)⟩

/-- C5 (fatal on bad input).  When `outFile` can be created, `doReduce` panics
exactly when one of the intermediate files `0 ≤ m < nMap` is missing,
unreadable or not decodable; a run that panics has written no record. -/
theorem doReduce_panics_iff (env : Env) (jobName : String) (reduceTask : Int)
    (outFile : String) (nMap : Int) (reduceF : String → List String → String)
    (hout : env.fs.creatable outFile = true) :
    ((doReduce env jobName reduceTask outFile nMap reduceF).panicked = true ↔
        ∃ m : Nat, (m : Int) < nMap ∧ intermediateFile env jobName reduceTask m = none) ∧
      ((doReduce env jobName reduceTask outFile nMap reduceF).panicked = true →
        (doReduce env jobName reduceTask outFile nMap reduceF).written = [] ∧
          (doReduce env jobName reduceTask outFile nMap reduceF).calls = []) := by
  constructor
  · rw [doReduce_panicked_iff, hout]
    simp
  · intro hp
    exact (panicked_run env jobName reduceTask outFile nMap reduceF hp).2

/-- The statement of C5 on the sample input with a third map task, whose file
is missing. -/
theorem doReduce_panics_iff_witness :
    sampleEnv.fs.creatable "out" = true ∧
      (((doReduce sampleEnv "job" 0 "out" 3 sampleReduce).panicked = true ↔
        ∃ m : Nat, (m : Int) < 3 ∧ intermediateFile sampleEnv "job" 0 m = none) ∧
      ((doReduce sampleEnv "job" 0 "out" 3 sampleReduce).panicked = true →
        (doReduce sampleEnv "job" 0 "out" 3 sampleReduce).written = [] ∧
          (doReduce sampleEnv "job" 0 "out" 3 sampleReduce).calls = [])) :=
  ⟨by decide, doReduce_panics_iff sampleEnv "job" 0 "out" 3 sampleReduce (by decide)⟩

/-- C6, as stated, fails: the decoder of the intermediate files rejects what the
output encoder writes for two records. -/
theorem encodeStream_not_decodable :
    unmarshal (encodeStream [⟨"a", "1"⟩, ⟨"b", "2"⟩]) = none := by
  decide

/-- C6 (serialization round trip), amended.  For every list of records, the
bytes the output encoder writes for the single records, put into one JSON array
with commas between them, are accepted by the decoder of the intermediate files
and decode to exactly that list; written one after another without the array,
as `outFile` holds them, they are rejected. -/
theorem encodeRecord_array_roundtrip (kvs : List KeyValue) :
    unmarshal (jsonArray (kvs.map encodeRecord)) = some kvs ∧
      unmarshal (encodeStream kvs) = none :=
  ⟨unmarshal_jsonArray ['\n'] (by decide) kvs, unmarshal_encodeStream kvs⟩

/-- C7, as stated, fails: the empty file is not decoded to zero records, and a
reduce task whose intermediate file is empty panics. -/
theorem empty_file_aborts :
    unmarshal [] = none ∧
      (doReduce ⟨sampleName, emptyFileFS, insertionOrder⟩ "job" 0 "out" 1
        sampleReduce).panicked = true := by
  decide

/-- C7 (decoding of zero or more records), amended.  When every intermediate
file `m`, `0 ≤ m < nMap`, holds one JSON array of `n ≥ 0` encoded records (the
text `[]` for `n = 0`) and `outFile` can be created, every file is decoded to
exactly its records in order, the input of the task is these records file after
file, and the reduce task does not panic. -/
theorem doReduce_reads_arrays (env : Env) (jobName : String) (reduceTask : Int)
    (outFile : String) (nMap : Int) (reduceF : String → List String → String)
    (files : Nat → List KeyValue)
    (hfiles : ∀ m : Nat, (m : Int) < nMap →
      env.fs.contents (env.reduceName jobName m reduceTask) =
        some (marshalKeyValues (files m)))
    (hout : env.fs.creatable outFile = true) :
    (∀ m : Nat, (m : Int) < nMap →
        intermediateFile env jobName reduceTask m = some (files m)) ∧
      inputRecords env jobName reduceTask nMap = (List.range nMap.toNat).flatMap files ∧
      (doReduce env jobName reduceTask outFile nMap reduceF).panicked = false := by
  have hdec : ∀ m : Nat, (m : Int) < nMap →
      intermediateFile env jobName reduceTask m = some (files m) := by
    intro m hm
    rw [intermediateFile_some env jobName reduceTask m _ (hfiles m hm),
      unmarshal_marshalKeyValues]
  refine ⟨hdec, ?_, ?_⟩
  · unfold inputRecords
    apply flatMap_congr_mem
    intro m hm
    have hlt : (m : Int) < nMap := by
      have := List.mem_range.mp hm
      omega
    simp [hdec m hlt]
  · have hp := doReduce_panicked_iff env jobName reduceTask outFile nMap reduceF
    cases hrun : (doReduce env jobName reduceTask outFile nMap reduceF).panicked with
    | false => rfl
    | true =>
      rw [hrun] at hp
      rcases hp.mp rfl with ⟨m, hm, hnone⟩ | hlocked
      · rw [hdec m hm] at hnone
        cases hnone
      · rw [hout] at hlocked
        cases hlocked

/-- The amended statement of C7 on the sample input. -/
theorem doReduce_reads_arrays_witness :
    (∀ m : Nat, (m : Int) < 2 →
      sampleEnv.fs.contents (sampleEnv.reduceName "job" m 0) =
        some (marshalKeyValues (sampleFiles m))) ∧
      sampleEnv.fs.creatable "out" = true ∧
      ((∀ m : Nat, (m : Int) < 2 → intermediateFile sampleEnv "job" 0 m = some (sampleFiles m)) ∧
        inputRecords sampleEnv "job" 0 2 = (List.range (2 : Int).toNat).flatMap sampleFiles ∧
        (doReduce sampleEnv "job" 0 "out" 2 sampleReduce).panicked = false) :=
  have hfiles : ∀ m : Nat, (m : Int) < 2 →
      sampleEnv.fs.contents (sampleEnv.reduceName "job" m 0) =
        some (marshalKeyValues (sampleFiles m)) := by
    intro m hm
    have hcases : m = 0 ∨ m = 1 := by omega
    rcases hcases with rfl | rfl <;> decide
  ⟨hfiles, by decide,
    doReduce_reads_arrays sampleEnv "job" 0 "out" 2 sampleReduce sampleFiles hfiles (by decide)⟩

/-- C8 (empty job).  For `nMap = 0`, under the precondition of the contract
that `outFile` is writable (`os.Create` succeeds on it), `doReduce` reads no
file, never calls `reduceF`, does not panic, writes no record and leaves
`outFile` existing and empty, whatever it held before. -/
theorem doReduce_empty_job (env : Env) (jobName : String) (reduceTask : Int)
    (outFile : String) (reduceF : String → List String → String)
    (hout : env.fs.creatable outFile = true) :
    (doReduce env jobName reduceTask outFile 0 reduceF).reads = [] ∧
      (doReduce env jobName reduceTask outFile 0 reduceF).calls = [] ∧
      (doReduce env jobName reduceTask outFile 0 reduceF).panicked = false ∧
      (doReduce env jobName reduceTask outFile 0 reduceF).written = [] ∧
      (doReduce env jobName reduceTask outFile 0 reduceF).fs.contents outFile = some [] := by
  have hperm := env.order.perm []
  have hnil : env.order.iter [] = [] := List.Perm.eq_nil hperm
  simp [doReduce, readLoop, groupValues, hout, hnil, writeLoop, FileSystem.create]

/-- The statement of C8 on the sample input, with an output path that holds a
file before the run. -/
theorem doReduce_empty_job_witness :
    sampleEnv.fs.creatable "mrtmp.job-0-0" = true ∧
      ((doReduce sampleEnv "job" 0 "mrtmp.job-0-0" 0 sampleReduce).reads = [] ∧
      (doReduce sampleEnv "job" 0 "mrtmp.job-0-0" 0 sampleReduce).calls = [] ∧
      (doReduce sampleEnv "job" 0 "mrtmp.job-0-0" 0 sampleReduce).panicked = false ∧
      (doReduce sampleEnv "job" 0 "mrtmp.job-0-0" 0 sampleReduce).written = [] ∧
      (doReduce sampleEnv "job" 0 "mrtmp.job-0-0" 0 sampleReduce).fs.contents "mrtmp.job-0-0" =
        some []) :=
  ⟨by decide, doReduce_empty_job sampleEnv "job" 0 "mrtmp.job-0-0" sampleReduce (by decide)⟩

/-- C9 (idempotence up to record order).  Two completed runs of `doReduce` on
file systems that agree on the intermediate files, with the same `reduceF` and
the same `outFile`, under any two iteration orders of the grouping map and
whatever `outFile` held before each run, write record sequences that are
permutations of each other, and after each run `outFile` holds the encodings of
the records of that run and nothing else. -/
theorem doReduce_rerun (reduceName : String → Int → Int → String) (fs1 fs2 : FileSystem)
    (order1 order2 : MapOrder) (jobName : String) (reduceTask : Int) (outFile : String)
    (nMap : Int) (reduceF : String → List String → String)
    (hsame : ∀ m : Nat, (m : Int) < nMap →
      fs1.contents (reduceName jobName m reduceTask) =
        fs2.contents (reduceName jobName m reduceTask))
    (h1 : (doReduce ⟨reduceName, fs1, order1⟩ jobName reduceTask outFile nMap
      reduceF).panicked = false)
    (h2 : (doReduce ⟨reduceName, fs2, order2⟩ jobName reduceTask outFile nMap
      reduceF).panicked = false) :
    ((doReduce ⟨reduceName, fs1, order1⟩ jobName reduceTask outFile nMap reduceF).written.Perm
        (doReduce ⟨reduceName, fs2, order2⟩ jobName reduceTask outFile nMap reduceF).written) ∧
      (doReduce ⟨reduceName, fs1, order1⟩ jobName reduceTask outFile nMap
          reduceF).fs.contents outFile =
        some (encodeStream
          (doReduce ⟨reduceName, fs1, order1⟩ jobName reduceTask outFile nMap reduceF).written) ∧
      (doReduce ⟨reduceName, fs2, order2⟩ jobName reduceTask outFile nMap
          reduceF).fs.contents outFile =
        some (encodeStream
          (doReduce ⟨reduceName, fs2, order2⟩ jobName reduceTask outFile nMap reduceF).written) := by
  refine ⟨?_, completed_contents_out _ _ _ _ _ _ h1, completed_contents_out _ _ _ _ _ _ h2⟩
  rw [completed_written _ _ _ _ _ _ h1, completed_written _ _ _ _ _ _ h2,
    completed_calls _ _ _ _ _ _ h1, completed_calls _ _ _ _ _ _ h2,
    inputRecords_congr reduceName fs1 fs2 order1 order2 jobName reduceTask nMap hsame]
  exact ((order1.perm _).trans (order2.perm _).symm).map _


/-- The statement of C9 on the sample input: the second run starts from the
file system the first run left and iterates in the opposite order. -/
theorem doReduce_rerun_witness :
    (∀ m : Nat, (m : Int) < 2 →
      sampleFS.contents (sampleName "job" m 0) =
        (doReduce ⟨sampleName, sampleFS, insertionOrder⟩ "job" 0 "out" 2
          sampleReduce).fs.contents (sampleName "job" m 0)) ∧
      ((doReduce ⟨sampleName, sampleFS, insertionOrder⟩ "job" 0 "out" 2
          sampleReduce).written.Perm
        (doReduce ⟨sampleName,
          (doReduce ⟨sampleName, sampleFS, insertionOrder⟩ "job" 0 "out" 2 sampleReduce).fs,
          reverseOrder⟩ "job" 0 "out" 2 sampleReduce).written) ∧
      (doReduce ⟨sampleName, sampleFS, insertionOrder⟩ "job" 0 "out" 2
          sampleReduce).fs.contents "out" =
        some (encodeStream
          (doReduce ⟨sampleName, sampleFS, insertionOrder⟩ "job" 0 "out" 2
            sampleReduce).written) ∧
      (doReduce ⟨sampleName,
          (doReduce ⟨sampleName, sampleFS, insertionOrder⟩ "job" 0 "out" 2 sampleReduce).fs,
          reverseOrder⟩ "job" 0 "out" 2 sampleReduce).fs.contents "out" =
        some (encodeStream
          (doReduce ⟨sampleName,
            (doReduce ⟨sampleName, sampleFS, insertionOrder⟩ "job" 0 "out" 2 sampleReduce).fs,
            reverseOrder⟩ "job" 0 "out" 2 sampleReduce).written) :=
  have hsame : ∀ m : Nat, (m : Int) < 2 →
      sampleFS.contents (sampleName "job" m 0) =
        (doReduce ⟨sampleName, sampleFS, insertionOrder⟩ "job" 0 "out" 2
          sampleReduce).fs.contents (sampleName "job" m 0) := by
    intro m hm
    have hcases : m = 0 ∨ m = 1 := by omega
    rcases hcases with rfl | rfl <;> decide
  ⟨hsame,
    doReduce_rerun sampleName sampleFS
      (doReduce ⟨sampleName, sampleFS, insertionOrder⟩ "job" 0 "out" 2 sampleReduce).fs
      insertionOrder reverseOrder "job" 0 "out" 2 sampleReduce hsame (by decide) (by decide)⟩

/-- C10, as stated, fails: when `outFile` is the path of an intermediate file,
a completed run changes the contents of that intermediate file. -/
theorem doReduce_overwrites_aliased_input :
    (doReduce sampleEnv "job" 0 (sampleName "job" 1 0) 2 sampleReduce).panicked = false ∧
      (doReduce sampleEnv "job" 0 (sampleName "job" 1 0) 2 sampleReduce).fs.contents
          (sampleName "job" 1 0) ≠
        sampleEnv.fs.contents (sampleName "job" 1 0) := by
  decide

/-- C10 (frame of side effects), amended.  A completed run of `doReduce`
changes the file system at `outFile` only: every other path, so every
intermediate file whose path is not `outFile`, has the contents it had before,
and the paths where a file can be created are the same.  The files read are the
`nMap` paths `reduceName(jobName, m, reduceTask)`, one read for each map task
`m`, in the order of the map tasks. -/
theorem doReduce_frame (env : Env) (jobName : String) (reduceTask : Int)
    (outFile : String) (nMap : Int) (reduceF : String → List String → String)
    (hdone : (doReduce env jobName reduceTask outFile nMap reduceF).panicked = false) :
    (∀ p : String, p ≠ outFile →
        (doReduce env jobName reduceTask outFile nMap reduceF).fs.contents p =
          env.fs.contents p) ∧
      (∀ m : Nat, (m : Int) < nMap → env.reduceName jobName m reduceTask ≠ outFile →
        (doReduce env jobName reduceTask outFile nMap reduceF).fs.contents
            (env.reduceName jobName m reduceTask) =
          env.fs.contents (env.reduceName jobName m reduceTask)) ∧
      (doReduce env jobName reduceTask outFile nMap reduceF).fs.creatable = env.fs.creatable ∧
      (doReduce env jobName reduceTask outFile nMap reduceF).reads =
        (List.range nMap.toNat).map
          (fun m : Nat => env.reduceName jobName (m : Int) reduceTask) :=
  ⟨fun p hp => completed_contents_other env jobName reduceTask outFile nMap reduceF hdone p hp,
    fun _ _ hp =>
      completed_contents_other env jobName reduceTask outFile nMap reduceF hdone _ hp,
    completed_creatable env jobName reduceTask outFile nMap reduceF hdone,
    completed_reads env jobName reduceTask outFile nMap reduceF hdone⟩

/-- The amended statement of C10 on the sample input. -/
theorem doReduce_frame_witness :
    (doReduce sampleEnv "job" 0 "out" 2 sampleReduce).panicked = false ∧
      ((∀ p : String, p ≠ "out" →
        (doReduce sampleEnv "job" 0 "out" 2 sampleReduce).fs.contents p =
          sampleEnv.fs.contents p) ∧
      (∀ m : Nat, (m : Int) < 2 → sampleEnv.reduceName "job" m 0 ≠ "out" →
        (doReduce sampleEnv "job" 0 "out" 2 sampleReduce).fs.contents
            (sampleEnv.reduceName "job" m 0) =
          sampleEnv.fs.contents (sampleEnv.reduceName "job" m 0)) ∧
      (doReduce sampleEnv "job" 0 "out" 2 sampleReduce).fs.creatable =
        sampleEnv.fs.creatable ∧
      (doReduce sampleEnv "job" 0 "out" 2 sampleReduce).reads =
        (List.range (2 : Int).toNat).map
          (fun m : Nat => sampleEnv.reduceName "job" (m : Int) 0)) :=
  ⟨by decide, doReduce_frame sampleEnv "job" 0 "out" 2 sampleReduce (by decide)⟩

/-- C11 (sum aggregation).  With `reduceF` the decimal sum of the values parsed
as integers, every record a completed run writes for a key `k` has as its value
the decimal rendering of the sum of the integer values of all input records with
key `k`; the result of the reduce function does not depend on the order of the
values; and on the two sample files (`[("a","1"),("b","2")]` and
`[("a","3")]`) the run completes under every iteration order of the map and
writes, up to order, exactly the records `("a","4")` and `("b","2")`. -/
theorem doReduce_sum (env : Env) (jobName : String) (reduceTask : Int)
    (outFile : String) (nMap : Int) (order : MapOrder)
    (hdone : (doReduce env jobName reduceTask outFile nMap sumReduce).panicked = false) :
    (∀ kv ∈ (doReduce env jobName reduceTask outFile nMap sumReduce).written,
        kv.Value = toString
          ((((inputRecords env jobName reduceTask nMap).filter
            (fun r => r.Key = kv.Key)).map (fun r => intValue r.Value)).sum)) ∧
      (∀ (k : String) (vs ws : List String), vs.Perm ws → sumReduce k vs = sumReduce k ws) ∧
      (doReduce ⟨sampleName, sampleFS, order⟩ "job" 0 "out" 2 sumReduce).panicked = false ∧
      ((doReduce ⟨sampleName, sampleFS, order⟩ "job" 0 "out" 2 sumReduce).written.Perm
        [⟨"a", "4"⟩, ⟨"b", "2"⟩]) := by
  refine ⟨?_, ?_, (sample_run order sumReduce).1, (sample_run order sumReduce).2⟩
  · intro kv hkv
    rw [completed_written_value env jobName reduceTask outFile nMap sumReduce hdone kv hkv]
    simp [sumReduce, valuesOf, Function.comp_def]
  · intro k vs ws hperm
    simp only [sumReduce]
    rw [(hperm.map intValue).sum_eq]

/-- The statement of C11 on the sample input, iterated in reverse order. -/
theorem doReduce_sum_witness :
    (doReduce sampleEnv "job" 0 "out" 2 sumReduce).panicked = false ∧
      ((∀ kv ∈ (doReduce sampleEnv "job" 0 "out" 2 sumReduce).written,
        kv.Value = toString
          ((((inputRecords sampleEnv "job" 0 2).filter
            (fun r => r.Key = kv.Key)).map (fun r => intValue r.Value)).sum)) ∧
      (∀ (k : String) (vs ws : List String), vs.Perm ws → sumReduce k vs = sumReduce k ws) ∧
      (doReduce ⟨sampleName, sampleFS, reverseOrder⟩ "job" 0 "out" 2 sumReduce).panicked =
        false ∧
      ((doReduce ⟨sampleName, sampleFS, reverseOrder⟩ "job" 0 "out" 2 sumReduce).written.Perm
        [⟨"a", "4"⟩, ⟨"b", "2"⟩])) :=
  ⟨by decide, doReduce_sum sampleEnv "job" 0 "out" 2 reverseOrder (by decide)⟩

/-- C12 (count aggregation).  With `reduceF` the decimal rendering of the number
of values, for every input of a completed run: every written record has as its
value the number of input records with its key, each duplicate counted; every
key of the input is written exactly once, with that number; in particular a
key that occurs 5 times in the input is written exactly once, with the value
`"5"`.  On three files that hold the record `("k", "v")` twice, twice and once,
the run completes under every iteration order of the map and writes the one
record `("k", "5")`. -/
theorem doReduce_count (env : Env) (jobName : String) (reduceTask : Int)
    (outFile : String) (nMap : Int) (order : MapOrder)
    (hdone : (doReduce env jobName reduceTask outFile nMap countReduce).panicked = false) :
    (∀ kv ∈ (doReduce env jobName reduceTask outFile nMap countReduce).written,
        kv.Value = toString
          ((inputRecords env jobName reduceTask nMap).filter
            (fun r => r.Key = kv.Key)).length) ∧
      (∀ k : String, k ∈ (inputRecords env jobName reduceTask nMap).map KeyValue.Key →
        (doReduce env jobName reduceTask outFile nMap countReduce).written.filter
            (fun kv => kv.Key = k) =
          [⟨k, toString ((inputRecords env jobName reduceTask nMap).filter
            (fun r => r.Key = k)).length⟩]) ∧
      (∀ k : String,
        ((inputRecords env jobName reduceTask nMap).filter (fun r => r.Key = k)).length = 5 →
        (doReduce env jobName reduceTask outFile nMap countReduce).written.filter
            (fun kv => kv.Key = k) = [⟨k, "5"⟩]) ∧
      (doReduce ⟨sampleName, repeatFS, order⟩ "job" 0 "out" 3 countReduce).panicked = false ∧
      (doReduce ⟨sampleName, repeatFS, order⟩ "job" 0 "out" 3 countReduce).written =
        [⟨"k", "5"⟩] := by
  have hkey : ∀ k : String,
      k ∈ (inputRecords env jobName reduceTask nMap).map KeyValue.Key →
      (doReduce env jobName reduceTask outFile nMap countReduce).written.filter
          (fun kv => kv.Key = k) =
        [⟨k, toString ((inputRecords env jobName reduceTask nMap).filter
          (fun r => r.Key = k)).length⟩] := by
    intro k hk
    rw [completed_written_of_key env jobName reduceTask outFile nMap countReduce hdone k hk]
    simp [countReduce, valuesOf]
  refine ⟨?_, hkey, ?_, (repeat_run order countReduce).1,
    List.perm_singleton.mp (repeat_run order countReduce).2⟩
  · intro kv hkv
    rw [completed_written_value env jobName reduceTask outFile nMap countReduce hdone kv hkv]
    simp [countReduce, valuesOf]
  · intro k hfive
    have hk : k ∈ (inputRecords env jobName reduceTask nMap).map KeyValue.Key := by
      have hpos : 0 < ((inputRecords env jobName reduceTask nMap).filter
          (fun r => r.Key = k)).length := by omega
      obtain ⟨r, hr⟩ := List.exists_mem_of_length_pos hpos
      obtain ⟨hr1, hr2⟩ := List.mem_filter.mp hr
      exact List.mem_map.mpr ⟨r, hr1, by simpa using hr2⟩
    rw [hkey k hk, hfive]
    rfl

/-- The statement of C12 on the sample input (the key `a` twice, the key `b`
once), with the three files of five equal records iterated in reverse order. -/
theorem doReduce_count_witness :
    (doReduce sampleEnv "job" 0 "out" 2 countReduce).panicked = false ∧
      ((∀ kv ∈ (doReduce sampleEnv "job" 0 "out" 2 countReduce).written,
        kv.Value = toString
          ((inputRecords sampleEnv "job" 0 2).filter (fun r => r.Key = kv.Key)).length) ∧
      (∀ k : String, k ∈ (inputRecords sampleEnv "job" 0 2).map KeyValue.Key →
        (doReduce sampleEnv "job" 0 "out" 2 countReduce).written.filter
            (fun kv => kv.Key = k) =
          [⟨k, toString ((inputRecords sampleEnv "job" 0 2).filter
            (fun r => r.Key = k)).length⟩]) ∧
      (∀ k : String,
        ((inputRecords sampleEnv "job" 0 2).filter (fun r => r.Key = k)).length = 5 →
        (doReduce sampleEnv "job" 0 "out" 2 countReduce).written.filter
            (fun kv => kv.Key = k) = [⟨k, "5"⟩]) ∧
      (doReduce ⟨sampleName, repeatFS, reverseOrder⟩ "job" 0 "out" 3 countReduce).panicked =
        false ∧
      (doReduce ⟨sampleName, repeatFS, reverseOrder⟩ "job" 0 "out" 3 countReduce).written =
        [⟨"k", "5"⟩]) :=
  ⟨by decide, doReduce_count sampleEnv "job" 0 "out" 2 reverseOrder (by decide)⟩

/-- C13 (order of encounter).  In a completed run every intermediate file is
decoded, and the values passed to `reduceF` in a call for the key `k` are, as a
list, the values of the records with key `k` in `inputRecords`, which is the
concatenation of the files `0, ..., nMap-1` in this order. -/
theorem doReduce_values_in_order (env : Env) (jobName : String) (reduceTask : Int)
    (outFile : String) (nMap : Int) (reduceF : String → List String → String)
    (hdone : (doReduce env jobName reduceTask outFile nMap reduceF).panicked = false)
    (k : String) (vs : List String)
    (hcall : (k, vs) ∈ (doReduce env jobName reduceTask outFile nMap reduceF).calls) :
    (∀ m : Nat, (m : Int) < nMap →
        ∃ kvs, intermediateFile env jobName reduceTask m = some kvs) ∧
      vs = ((inputRecords env jobName reduceTask nMap).filter
        (fun kv => kv.Key = k)).map KeyValue.Value := by
  constructor
  · intro m hm
    have h := (ok_of_completed env jobName reduceTask outFile nMap reduceF hdone).1 m hm
    exact Option.ne_none_iff_exists'.mp h
  · exact ((completed_mem_calls env jobName reduceTask outFile nMap reduceF hdone k vs).mp
      hcall).2

/-- The statement of C13 on the sample input, for the call on the key `a`. -/
theorem doReduce_values_in_order_witness :
    (doReduce sampleEnv "job" 0 "out" 2 sampleReduce).panicked = false ∧
      ("a", ["1", "3"]) ∈ (doReduce sampleEnv "job" 0 "out" 2 sampleReduce).calls ∧
      ((∀ m : Nat, (m : Int) < 2 → ∃ kvs, intermediateFile sampleEnv "job" 0 m = some kvs) ∧
        ["1", "3"] = ((inputRecords sampleEnv "job" 0 2).filter
          (fun kv => kv.Key = "a")).map KeyValue.Value) :=
  ⟨by decide, by decide,
    doReduce_values_in_order sampleEnv "job" 0 "out" 2 sampleReduce (by decide) "a" ["1", "3"]
      (by decide)⟩

/-- C14, as stated, fails: under the iteration order opposite to the order of
insertion the sample run writes the key `b` before the key `a`. -/
theorem doReduce_output_not_sorted :
    (doReduce ⟨sampleName, sampleFS, reverseOrder⟩ "job" 0 "out" 2 sampleReduce).panicked =
        false ∧
      (doReduce ⟨sampleName, sampleFS, reverseOrder⟩ "job" 0 "out" 2
        sampleReduce).written.map KeyValue.Key = ["b", "a"] ∧
      ¬ ((doReduce ⟨sampleName, sampleFS, reverseOrder⟩ "job" 0 "out" 2
        sampleReduce).written.map KeyValue.Key).Pairwise
          (fun x y => stringLess x y = true) := by
  decide

/-- C14 (order of the output), amended.  `doReduce` does not sort: in a
completed run the keys of the written records, and of the calls of `reduceF`,
are the keys of the grouping map in the order the `range` loop visits them; they
are pairwise distinct, and they are in strictly increasing order exactly when
the loop visits the keys in non-decreasing order. -/
theorem doReduce_output_order (env : Env) (jobName : String) (reduceTask : Int)
    (outFile : String) (nMap : Int) (reduceF : String → List String → String)
    (hdone : (doReduce env jobName reduceTask outFile nMap reduceF).panicked = false) :
    (doReduce env jobName reduceTask outFile nMap reduceF).written.map KeyValue.Key =
        (env.order.iter (groupValues (inputRecords env jobName reduceTask nMap))).map
          Prod.fst ∧
      (doReduce env jobName reduceTask outFile nMap reduceF).calls.map Prod.fst =
        (env.order.iter (groupValues (inputRecords env jobName reduceTask nMap))).map
          Prod.fst ∧
      ((doReduce env jobName reduceTask outFile nMap reduceF).written.map KeyValue.Key).Nodup ∧
      (((doReduce env jobName reduceTask outFile nMap reduceF).written.map
          KeyValue.Key).Pairwise (fun x y => stringLess x y = true) ↔
        ((env.order.iter (groupValues (inputRecords env jobName reduceTask nMap))).map
          Prod.fst).Pairwise (fun x y => stringLess y x = false)) := by
  have hkeys := completed_written_keys env jobName reduceTask outFile nMap reduceF hdone
  have hcalls := completed_calls env jobName reduceTask outFile nMap reduceF hdone
  have hnodup : ((doReduce env jobName reduceTask outFile nMap reduceF).calls.map
      Prod.fst).Nodup :=
    (completed_calls_keys env jobName reduceTask outFile nMap reduceF hdone).nodup_iff.mpr
      (List.nodup_dedup _)
  rw [hkeys]
  refine ⟨by rw [hcalls], by rw [hcalls], hnodup, ?_⟩
  rw [← hcalls]
  constructor
  · intro h
    refine h.imp ?_
    intro x y hxy
    rw [stringLess_eq_false_iff]
    exact le_of_lt ((stringLess_iff x y).mp hxy)
  · intro h
    have hboth := h.and hnodup
    refine hboth.imp ?_
    intro x y hxy
    rw [stringLess_iff]
    exact lt_of_le_of_ne ((stringLess_eq_false_iff y x).mp hxy.1) hxy.2

/-- The amended statement of C14 on the sample input. -/
theorem doReduce_output_order_witness :
    (doReduce sampleEnv "job" 0 "out" 2 sampleReduce).panicked = false ∧
      ((doReduce sampleEnv "job" 0 "out" 2 sampleReduce).written.map KeyValue.Key =
        (sampleEnv.order.iter (groupValues (inputRecords sampleEnv "job" 0 2))).map
          Prod.fst ∧
      (doReduce sampleEnv "job" 0 "out" 2 sampleReduce).calls.map Prod.fst =
        (sampleEnv.order.iter (groupValues (inputRecords sampleEnv "job" 0 2))).map
          Prod.fst ∧
      ((doReduce sampleEnv "job" 0 "out" 2 sampleReduce).written.map KeyValue.Key).Nodup ∧
      (((doReduce sampleEnv "job" 0 "out" 2 sampleReduce).written.map
          KeyValue.Key).Pairwise (fun x y => stringLess x y = true) ↔
        ((sampleEnv.order.iter (groupValues (inputRecords sampleEnv "job" 0 2))).map
          Prod.fst).Pairwise (fun x y => stringLess y x = false))) :=
  ⟨by decide, doReduce_output_order sampleEnv "job" 0 "out" 2 sampleReduce (by decide)⟩

/-- C15 (map grouping is equivalent to sort-and-scan grouping).  For a list of
records and a permutation `sorted` of it that is ordered by key (no record has
a key smaller than the key of a record before it), the map grouping of
`doReduce` and the cut of `sorted` into maximal runs of equal keys both have one
group for each key, have the same keys, and for each key the values of one are a
permutation of the values of the other.  For the stable sort by key, which is
such a permutation, the two have exactly the same groups, with the same lists of
values. -/
theorem grouping_refines_sort_and_scan (records sorted : List KeyValue)
    (hperm : sorted.Perm records) (hsorted : sorted.Pairwise keyOrdered) :
    ((scanRuns sorted).map Prod.fst).Nodup ∧
      ((groupValues records).map Prod.fst).Nodup ∧
      (∀ k : String,
        k ∈ (scanRuns sorted).map Prod.fst ↔ k ∈ (groupValues records).map Prod.fst) ∧
      (∀ (k : String) (vs ws : List String),
        (k, vs) ∈ scanRuns sorted → (k, ws) ∈ groupValues records → vs.Perm ws) ∧
      (stableSortByKey records).Perm records ∧
      (stableSortByKey records).Pairwise keyOrdered ∧
      (∀ (k : String) (vs : List String),
        (k, vs) ∈ scanRuns (stableSortByKey records) ↔ (k, vs) ∈ groupValues records) := by
  obtain ⟨hnodup, hmem⟩ := scanRuns_sorted sorted hsorted
  have hkeys : ∀ k : String, k ∈ (scanRuns sorted).map Prod.fst ↔
      k ∈ sorted.map KeyValue.Key := by
    intro k
    constructor
    · intro hk
      obtain ⟨⟨k1, v1⟩, h1, h2⟩ := List.mem_map.mp hk
      simp only at h2
      exact h2 ▸ ((hmem k1 v1).mp h1).1
    · intro hk
      exact List.mem_map.mpr ⟨(k, valuesOf k sorted), (hmem k _).mpr ⟨hk, rfl⟩, rfl⟩
  have hstable := stableSortByKey_sorted records
  have hsperm : (stableSortByKey records).Perm records :=
    List.perm_insertionSort keyOrdered records
  refine ⟨hnodup, groupValues_keys_nodup records, ?_, ?_, hsperm, hstable, ?_⟩
  · intro k
    rw [hkeys, groupValues_keys_mem]
    exact (hperm.map KeyValue.Key).mem_iff
  · intro k vs ws hvs hws
    rw [((hmem k vs).mp hvs).2, ((groupValues_mem records k ws).mp hws).2]
    exact ((hperm.filter _).map KeyValue.Value)
  · intro k vs
    rw [(scanRuns_sorted _ hstable).2 k vs, groupValues_mem, valuesOf_stableSortByKey,
      (hsperm.map KeyValue.Key).mem_iff]

/-- The statement of C15 on the sample slice and a sorted permutation of it
that is not the stable one. -/
theorem grouping_refines_sort_and_scan_witness :
    ([⟨"a", "1"⟩, ⟨"b", "3"⟩, ⟨"b", "2"⟩] : List KeyValue).Perm samplePairs ∧
      ([⟨"a", "1"⟩, ⟨"b", "3"⟩, ⟨"b", "2"⟩] : List KeyValue).Pairwise keyOrdered ∧
      (((scanRuns [⟨"a", "1"⟩, ⟨"b", "3"⟩, ⟨"b", "2"⟩]).map Prod.fst).Nodup ∧
      ((groupValues samplePairs).map Prod.fst).Nodup ∧
      (∀ k : String,
        k ∈ (scanRuns [⟨"a", "1"⟩, ⟨"b", "3"⟩, ⟨"b", "2"⟩]).map Prod.fst ↔
          k ∈ (groupValues samplePairs).map Prod.fst) ∧
      (∀ (k : String) (vs ws : List String),
        (k, vs) ∈ scanRuns [⟨"a", "1"⟩, ⟨"b", "3"⟩, ⟨"b", "2"⟩] →
          (k, ws) ∈ groupValues samplePairs → vs.Perm ws) ∧
      (stableSortByKey samplePairs).Perm samplePairs ∧
      (stableSortByKey samplePairs).Pairwise keyOrdered ∧
      (∀ (k : String) (vs : List String),
        (k, vs) ∈ scanRuns (stableSortByKey samplePairs) ↔ (k, vs) ∈ groupValues samplePairs)) :=
  ⟨by decide, by decide,
    grouping_refines_sort_and_scan samplePairs [⟨"a", "1"⟩, ⟨"b", "3"⟩, ⟨"b", "2"⟩]
      (by decide) (by decide)⟩

/-- C16 (no output on input failure).  When an intermediate file `m`,
`0 ≤ m < nMap`, is missing, unreadable or not decodable, `doReduce` panics
without a call of `reduceF` and without a written record, and the file system,
the contents of `outFile` included, is as it was before the call. -/
theorem doReduce_atomic_on_bad_input (env : Env) (jobName : String) (reduceTask : Int)
    (outFile : String) (nMap : Int) (reduceF : String → List String → String)
    (m : Nat) (hm : (m : Int) < nMap)
    (hbad : intermediateFile env jobName reduceTask m = none) :
    (doReduce env jobName reduceTask outFile nMap reduceF).panicked = true ∧
      (doReduce env jobName reduceTask outFile nMap reduceF).fs = env.fs ∧
      (doReduce env jobName reduceTask outFile nMap reduceF).calls = [] ∧
      (doReduce env jobName reduceTask outFile nMap reduceF).written = [] := by
  have hp : (doReduce env jobName reduceTask outFile nMap reduceF).panicked = true :=
    (doReduce_panicked_iff env jobName reduceTask outFile nMap reduceF).mpr
      (Or.inl ⟨m, hm, hbad⟩)
  obtain ⟨hfs, hwritten, hcalls⟩ := panicked_run env jobName reduceTask outFile nMap reduceF hp
  exact ⟨hp, hfs, hcalls, hwritten⟩

/-- The statement of C16 on the sample input with a third map task, whose file
is missing, and an output path that holds a file before the call. -/
theorem doReduce_atomic_on_bad_input_witness :
    ((2 : Nat) : Int) < 3 ∧ intermediateFile sampleEnv "job" 0 2 = none ∧
      ((doReduce sampleEnv "job" 0 "mrtmp.job-0-0" 3 sampleReduce).panicked = true ∧
        (doReduce sampleEnv "job" 0 "mrtmp.job-0-0" 3 sampleReduce).fs = sampleEnv.fs ∧
        (doReduce sampleEnv "job" 0 "mrtmp.job-0-0" 3 sampleReduce).calls = [] ∧
        (doReduce sampleEnv "job" 0 "mrtmp.job-0-0" 3 sampleReduce).written = []) :=
  ⟨by decide, by decide,
    doReduce_atomic_on_bad_input sampleEnv "job" 0 "mrtmp.job-0-0" 3 sampleReduce 2 (by decide)
      (by decide)⟩

/-- C17 (groups are never empty).  Every entry of the grouping map built from a
list of records holds at least one value, and the lengths of the entries sum to
the number of the records; so in every run no call of `reduceF` has an empty
list of values, and in a completed run the lengths of the value lists of the
calls sum to the number of records decoded from the intermediate files. -/
theorem groups_never_empty (env : Env) (jobName : String) (reduceTask : Int)
    (outFile : String) (nMap : Int) (reduceF : String → List String → String)
    (records : List KeyValue) :
    (∀ entry ∈ groupValues records, entry.2 ≠ []) ∧
      ((groupValues records).map (fun entry => entry.2.length)).sum = records.length ∧
      (∀ call ∈ (doReduce env jobName reduceTask outFile nMap reduceF).calls, call.2 ≠ []) ∧
      ((doReduce env jobName reduceTask outFile nMap reduceF).panicked = false →
        ((doReduce env jobName reduceTask outFile nMap reduceF).calls.map
          (fun call => call.2.length)).sum =
            (inputRecords env jobName reduceTask nMap).length) := by
  have hne : ∀ (rs : List KeyValue), ∀ entry ∈ groupValues rs, entry.2 ≠ [] := by
    intro rs entry hentry
    obtain ⟨k, vs⟩ := entry
    obtain ⟨hk, hvs⟩ := (groupValues_mem rs k vs).mp hentry
    simp only [hvs]
    exact valuesOf_ne_nil k rs hk
  have hsum : ∀ (rs : List KeyValue),
      ((groupValues rs).map (fun entry => entry.2.length)).sum = rs.length := by
    intro rs
    rw [groupValues_eq, lengths_groupFrom]
    simp
  refine ⟨hne records, hsum records, ?_, ?_⟩
  · intro call hcall
    cases hp : (doReduce env jobName reduceTask outFile nMap reduceF).panicked with
    | true =>
      rw [(panicked_run env jobName reduceTask outFile nMap reduceF hp).2.2] at hcall
      cases hcall
    | false =>
      rw [completed_calls env jobName reduceTask outFile nMap reduceF hp,
        (env.order.perm _).mem_iff] at hcall
      exact hne _ call hcall
  · intro hdone
    rw [completed_calls env jobName reduceTask outFile nMap reduceF hdone,
      ((env.order.perm _).map (fun entry => entry.2.length)).sum_eq]
    exact hsum _

/-- The last part of C17 on the sample input, whose run completes. -/
theorem groups_never_empty_witness :
    (doReduce sampleEnv "job" 0 "out" 2 sampleReduce).panicked = false ∧
      ((doReduce sampleEnv "job" 0 "out" 2 sampleReduce).calls.map
        (fun call => call.2.length)).sum = (inputRecords sampleEnv "job" 0 2).length :=
  ⟨by decide,
    (groups_never_empty sampleEnv "job" 0 "out" 2 sampleReduce []).2.2.2 (by decide)⟩

/-- C18 (`Less` orders by key only and is a strict weak order).  For in-range
indices `i`, `j`, `l` of a slice, with the elements `a`, `b`, `c` at them:
`Less(i, j)` is true exactly when the key of `a` is smaller than the key of `b`
and false otherwise; it is the same on every slice with the same keys;
`Less(i, i)` is false; `Less(i, j)` and `Less(j, l)` give `Less(i, l)`; and
`Less(i, j)` and `Less(j, i)` are both false exactly when the keys of `a` and
`b` are equal. -/
theorem less_strict_weak_order (kvs : KeyValuePairs) (i j l : Int)
    (hi : 0 ≤ i ∧ i < KeyValuePairs.Len kvs) (hj : 0 ≤ j ∧ j < KeyValuePairs.Len kvs)
    (hl : 0 ≤ l ∧ l < KeyValuePairs.Len kvs) :
    ∃ a b c : KeyValue,
      KeyValuePairs.index kvs i = some a ∧ KeyValuePairs.index kvs j = some b ∧
      KeyValuePairs.index kvs l = some c ∧
      (KeyValuePairs.Less kvs i j = some true ↔ a.Key < b.Key) ∧
      (KeyValuePairs.Less kvs i j = some false ↔ ¬ a.Key < b.Key) ∧
      (∀ other : KeyValuePairs, other.map KeyValue.Key = kvs.map KeyValue.Key →
        KeyValuePairs.Less other i j = KeyValuePairs.Less kvs i j) ∧
      KeyValuePairs.Less kvs i i = some false ∧
      (KeyValuePairs.Less kvs i j = some true → KeyValuePairs.Less kvs j l = some true →
        KeyValuePairs.Less kvs i l = some true) ∧
      ((KeyValuePairs.Less kvs i j = some false ∧ KeyValuePairs.Less kvs j i = some false) ↔
        a.Key = b.Key) := by
  obtain ⟨_, ha⟩ := index_of_inRange kvs i hi.1 hi.2
  obtain ⟨_, hb⟩ := index_of_inRange kvs j hj.1 hj.2
  obtain ⟨_, hc⟩ := index_of_inRange kvs l hl.1 hl.2
  refine ⟨_, _, _, ha, hb, hc, ?_, ?_, ?_, ?_, ?_, ?_⟩
  · rw [less_of_index kvs i j _ _ ha hb]
    simp [stringLess_iff]
  · rw [less_of_index kvs i j _ _ ha hb, ← stringLess_iff]
    simp
  · intro other hkeys
    have h1 := index_map_key kvs other hkeys i
    have h2 := index_map_key kvs other hkeys j
    rw [ha] at h1
    rw [hb] at h2
    cases ho1 : KeyValuePairs.index other i with
    | none => rw [ho1] at h1; cases h1
    | some a1 =>
      cases ho2 : KeyValuePairs.index other j with
      | none => rw [ho2] at h2; cases h2
      | some b1 =>
        rw [ho1] at h1
        rw [ho2] at h2
        simp only [Option.map_some', Option.some.injEq] at h1 h2
        rw [less_of_index other i j _ _ ho1 ho2, less_of_index kvs i j _ _ ha hb, h1, h2]
  · rw [less_of_index kvs i i _ _ ha ha]
    simp [stringLess_eq_false_iff]
  · rw [less_of_index kvs i j _ _ ha hb, less_of_index kvs j l _ _ hb hc,
      less_of_index kvs i l _ _ ha hc]
    simp only [Option.some.injEq, stringLess_iff]
    exact fun h1 h2 => lt_trans h1 h2
  · rw [less_of_index kvs i j _ _ ha hb, less_of_index kvs j i _ _ hb ha]
    simp only [Option.some.injEq, stringLess_eq_false_iff]
    constructor
    · rintro ⟨h1, h2⟩
      exact le_antisymm h2 h1
    · intro h
      exact ⟨le_of_eq h.symm, le_of_eq h⟩

/-- The statement of C18 on the sample slice, at the indices `0`, `1`, `2`. -/
theorem less_strict_weak_order_witness :
    ((0 : Int) ≤ 0 ∧ (0 : Int) < KeyValuePairs.Len samplePairs) ∧
      ((0 : Int) ≤ 1 ∧ (1 : Int) < KeyValuePairs.Len samplePairs) ∧
      ((0 : Int) ≤ 2 ∧ (2 : Int) < KeyValuePairs.Len samplePairs) ∧
      ∃ a b c : KeyValue,
        KeyValuePairs.index samplePairs 0 = some a ∧ KeyValuePairs.index samplePairs 1 = some b ∧
        KeyValuePairs.index samplePairs 2 = some c ∧
        (KeyValuePairs.Less samplePairs 0 1 = some true ↔ a.Key < b.Key) ∧
        (KeyValuePairs.Less samplePairs 0 1 = some false ↔ ¬ a.Key < b.Key) ∧
        (∀ other : KeyValuePairs, other.map KeyValue.Key = samplePairs.map KeyValue.Key →
          KeyValuePairs.Less other 0 1 = KeyValuePairs.Less samplePairs 0 1) ∧
        KeyValuePairs.Less samplePairs 0 0 = some false ∧
        (KeyValuePairs.Less samplePairs 0 1 = some true →
          KeyValuePairs.Less samplePairs 1 2 = some true →
          KeyValuePairs.Less samplePairs 0 2 = some true) ∧
        ((KeyValuePairs.Less samplePairs 0 1 = some false ∧
          KeyValuePairs.Less samplePairs 1 0 = some false) ↔ a.Key = b.Key) :=
  ⟨by decide, by decide, by decide,
    less_strict_weak_order samplePairs 0 1 2 (by decide) (by decide) (by decide)⟩

/-- C19 (`Swap` exchanges two elements and nothing else).  For in-range indices
`i` and `j` of a slice, `Swap(i, j)` does not panic; afterwards position `i`
holds the former element `j`, position `j` the former element `i`, every other
position is unchanged, `Len()` is unchanged and is the number of records, the
records are the same with the same multiplicities, and a second `Swap(i, j)`
restores the slice. -/
theorem swap_exchanges (kvs : KeyValuePairs) (i j : Int)
    (hi : 0 ≤ i ∧ i < KeyValuePairs.Len kvs) (hj : 0 ≤ j ∧ j < KeyValuePairs.Len kvs) :
    ∃ swapped : KeyValuePairs,
      KeyValuePairs.Swap kvs i j = some swapped ∧
      KeyValuePairs.index swapped i = KeyValuePairs.index kvs j ∧
      KeyValuePairs.index swapped j = KeyValuePairs.index kvs i ∧
      (∀ n : Int, n ≠ i → n ≠ j →
        KeyValuePairs.index swapped n = KeyValuePairs.index kvs n) ∧
      KeyValuePairs.Len swapped = KeyValuePairs.Len kvs ∧
      KeyValuePairs.Len kvs = (kvs.length : Int) ∧
      swapped.Perm kvs ∧
      KeyValuePairs.Swap swapped i j = some kvs := by
  have hm : i.toNat < kvs.length := by
    have := hi.2
    simp only [KeyValuePairs.Len] at this
    omega
  have hn : j.toNat < kvs.length := by
    have := hj.2
    simp only [KeyValuePairs.Len] at this
    omega
  have hidx_i : KeyValuePairs.index kvs i = some (kvs.get ⟨i.toNat, hm⟩) := by
    rw [index_eq_getElem kvs i hi.1]
    simp [List.getElem?_eq_getElem hm]
  have hidx_j : KeyValuePairs.index kvs j = some (kvs.get ⟨j.toNat, hn⟩) := by
    rw [index_eq_getElem kvs j hj.1]
    simp [List.getElem?_eq_getElem hn]
  have hget := set_set_getElem kvs i.toNat j.toNat hm hn
  have hsw_i : KeyValuePairs.index
      ((kvs.set i.toNat (kvs.get ⟨j.toNat, hn⟩)).set j.toNat (kvs.get ⟨i.toNat, hm⟩)) i =
        KeyValuePairs.index kvs j := by
    rw [index_eq_getElem _ i hi.1, index_eq_getElem kvs j hj.1, hget]
    by_cases h : i.toNat = j.toNat
    · simp [h]
    · simp [h]
  have hsw_j : KeyValuePairs.index
      ((kvs.set i.toNat (kvs.get ⟨j.toNat, hn⟩)).set j.toNat (kvs.get ⟨i.toNat, hm⟩)) j =
        KeyValuePairs.index kvs i := by
    rw [index_eq_getElem _ j hj.1, index_eq_getElem kvs i hi.1, hget]
    simp
  refine ⟨(kvs.set i.toNat (kvs.get ⟨j.toNat, hn⟩)).set j.toNat (kvs.get ⟨i.toNat, hm⟩),
    ?_, hsw_i, hsw_j, ?_, ?_, rfl, set_set_perm kvs i.toNat j.toNat hm hn, ?_⟩
  · simp [KeyValuePairs.Swap, hidx_i, hidx_j]
  · intro n hni hnj
    by_cases h0 : 0 ≤ n
    · rw [index_eq_getElem _ n h0, index_eq_getElem kvs n h0, hget]
      have h1 : ¬ n.toNat = j.toNat := by
        have := hj.1
        omega
      have h2 : ¬ n.toNat = i.toNat := by
        have := hi.1
        omega
      simp [h1, h2]
    · rw [index_neg _ n h0, index_neg kvs n h0]
  · simp [KeyValuePairs.Len]
  · rw [hidx_j] at hsw_i
    rw [hidx_i] at hsw_j
    simp only [KeyValuePairs.Swap, hsw_i, hsw_j]
    congr 1
    apply List.ext_getElem?
    intro p
    simp only [List.getElem?_set, List.length_set, List.get_eq_getElem]
    by_cases h1 : j.toNat = p
    · subst h1
      simp [hn, List.getElem?_eq_getElem hn]
    · by_cases h2 : i.toNat = p
      · subst h2
        simp [h1, hm, List.getElem?_eq_getElem hm]
      · simp [h1, h2]

/-- The statement of C19 on the sample slice, at the indices `0` and `2`. -/
theorem swap_exchanges_witness :
    ((0 : Int) ≤ 0 ∧ (0 : Int) < KeyValuePairs.Len samplePairs) ∧
      ((0 : Int) ≤ 2 ∧ (2 : Int) < KeyValuePairs.Len samplePairs) ∧
      ∃ swapped : KeyValuePairs,
        KeyValuePairs.Swap samplePairs 0 2 = some swapped ∧
        KeyValuePairs.index swapped 0 = KeyValuePairs.index samplePairs 2 ∧
        KeyValuePairs.index swapped 2 = KeyValuePairs.index samplePairs 0 ∧
        (∀ n : Int, n ≠ 0 → n ≠ 2 →
          KeyValuePairs.index swapped n = KeyValuePairs.index samplePairs n) ∧
        KeyValuePairs.Len swapped = KeyValuePairs.Len samplePairs ∧
        KeyValuePairs.Len samplePairs = (samplePairs.length : Int) ∧
        swapped.Perm samplePairs ∧
        KeyValuePairs.Swap swapped 0 2 = some samplePairs :=
  ⟨by decide, by decide, swap_exchanges samplePairs 0 2 (by decide) (by decide)⟩

end MapReduce
